import Mathlib

/-
Verification of the task dependency scheduler and dispatch/completion-tracking
protocol of the `agent-collab` repository.

The Lean definitions below are a shallow embedding of
`agent_collab/task_manager.py` (class `TaskManager`) and
`agent_collab/sub_agent.py` (class `SubAgent`).  Python dicts that map a
fixed key set are embedded as functions into `Option`; the mutable object
state of `TaskManager` (`self.tasks`, `self.task_status`) is threaded
explicitly as a `TaskManagerState`.  Network I/O is modelled by oracle
functions describing the responses the remote side gives to each request;
the act of submitting a task (`send_task_to_agent` being called) is recorded
in an instrumentation field `submitted` so that dispatch properties can be
stated.  `try/except` blocks that only log are embedded by returning the
state accumulated at the raise point; the one `except` that a raise has to
cross a function boundary to reach (`check_and_assign_waiting_tasks` has no
handler of its own, its caller `send_task_to_agent` catches) is embedded
with `Except`.
-/

namespace AgentCollab

/-- A task record, as built by `TaskManager.parse_tasks_markdown`
(task_manager.py lines 71-80).  `taskType` models the optional `"type"` key
read by `task.get("type", "generic")`; tasks built by the parser do not
carry it.  `status` is the (never updated) `"status"` key of the task dict
itself; execution tracking uses the separate `task_status` map. -/
structure Task where
  id : String
  title : String
  description : String
  agent : String
  priority : Int
  dependencies : List String
  status : String
  result : Option String
  taskType : Option String
  deriving DecidableEq, Repr

/-- An entry of the `task_status` dict (task_manager.py lines 97-102).
`startTime`/`completionTime` are initialised to `None` and never written
again nor read. -/
structure StatusRec where
  status : String
  assignedAgent : String
  startTime : Option Nat
  completionTime : Option Nat
  deriving DecidableEq, Repr

/-- The mutable state of a `TaskManager`: `self.tasks` and
`self.task_status`, plus the instrumentation log `submitted` recording, in
call order, the `id` of each task passed to `send_task_to_agent`. -/
structure TaskManagerState where
  tasks : List Task
  taskStatus : String → Option StatusRec
  submitted : List String

/-- `self.task_status.get(tid, {}).get("status", "not_started")`
(task_manager.py line 163). -/
def statusD (st : TaskManagerState) (tid : String) : String :=
  ((st.taskStatus tid).map StatusRec.status).getD "not_started"

/-- `self.task_status.get(tid, {}).get("status")` — no default
(task_manager.py lines 218-219, 286). -/
def statusOpt (st : TaskManagerState) (tid : String) : Option String :=
  (st.taskStatus tid).map StatusRec.status

/-- `TaskManager.can_assign_task` (task_manager.py lines 155-167): every
dependency title is looked up with `next((t for t in self.tasks if
t["title"] == dep), None)` (first match); a title that matches no task is
skipped (`continue`); a resolved dependency blocks unless its tracked
status is `"completed"`. -/
def can_assign_task (st : TaskManagerState) (task : Task) : Bool :=
  task.dependencies.all fun dep =>
    match st.tasks.find? (fun t => t.title == dep) with
    | none => true
    | some dep_task => statusD st dep_task.id == "completed"

/-- Shared characterisation of `can_assign_task`: true iff every
dependency title resolving (first match) to a task has tracked status
`"completed"`. -/
theorem can_assign_eq_true (st : TaskManagerState) (task : Task) :
    can_assign_task st task = true ↔
      ∀ dep ∈ task.dependencies, ∀ dt,
        st.tasks.find? (fun t => t.title == dep) = some dt →
          statusD st dt.id = "completed" := by
  unfold can_assign_task
  rw [List.all_eq_true]
  constructor
  · intro h dep hdep dt hdt
    have := h dep hdep
    rw [hdt] at this
    simpa using this
  · intro h dep hdep
    cases hdt : st.tasks.find? (fun t => t.title == dep) with
    | none => simp [hdt]
    | some dt => simp [hdt, h dep hdep dt hdt]

/-- C3: `can_assign_task` is true iff every dependency title that resolves
to a task (first match, as the code looks it up) has tracked status
`"completed"`; and in particular a task all of whose dependency titles are
unresolved is assignable immediately. -/
theorem can_assign_task_characterisation (st : TaskManagerState) (task : Task) :
    (can_assign_task st task = true ↔
      ∀ dep ∈ task.dependencies, ∀ dt,
        st.tasks.find? (fun t => t.title == dep) = some dt →
          statusD st dt.id = "completed") ∧
    ((∀ dep ∈ task.dependencies,
        st.tasks.find? (fun t => t.title == dep) = none) →
      can_assign_task st task = true) := by
  refine ⟨can_assign_eq_true st task, fun h => ?_⟩
  rw [can_assign_eq_true]
  intro dep hdep dt hdt
  rw [h dep hdep] at hdt
  exact absurd hdt (by simp)

/-- Witness for C3 at a concrete input: one task whose single dependency
title `"ghost"` matches no task in the set (spec Scenario C). -/
theorem can_assign_task_characterisation_witness :
    can_assign_task
      ⟨[⟨"task_1", "D", "d", "developer", 5, ["ghost"], "not_started", none, none⟩],
        fun _ => none, []⟩
      ⟨"task_1", "D", "d", "developer", 5, ["ghost"], "not_started", none, none⟩ = true := by
  apply (can_assign_task_characterisation _ _).2
  intro dep hdep
  simp at hdep
  subst hdep
  decide

/-! ## Dependency scheduler (`TaskManager.sort_tasks_by_dependencies`) -/

/-- `dep in task_map` (task_manager.py line 130). -/
def resolvable (tasks : List Task) (dep : String) : Bool :=
  tasks.any fun t => t.title == dep

/-- `task_map = {task["title"]: task for task in self.tasks}` (line 116).
In a dict comprehension a later task with the same title overwrites an
earlier one, so lookup returns the last task carrying the title. -/
def task_map (tasks : List Task) (title : String) : Option Task :=
  tasks.reverse.find? fun t => t.title == title

/-- Distinct elements in first-occurrence order, skipping the ones already
`seen`. -/
def firstDedupAux (seen : List String) : List String → List String
  | [] => []
  | x :: xs =>
    if seen.contains x then firstDedupAux seen xs
    else x :: firstDedupAux (x :: seen) xs

/-- Distinct elements in first-occurrence order: the key order of a Python
dict filled by insertion (re-assigning an existing key keeps its place). -/
def firstDedup (l : List String) : List String :=
  firstDedupAux [] l

/-- The key list of `in_degree` and `graph` (lines 122-125): every task
title, first-occurrence order. -/
def titleKeys (tasks : List Task) : List String :=
  firstDedup (tasks.map Task.title)

/-- Append a value to a key of `graph`. -/
def pushKey (g : String → List String) (k : String) (v : String) : String → List String :=
  fun x => if x = k then g k ++ [v] else g x

/-- The `in_degree` dict after the two build loops (lines 119-132): every
key starts at 0; each task contributes `+1` to `in_degree[task.title]` per
resolvable dependency occurrence. -/
def in_degree_build (tasks : List Task) : String → Int :=
  tasks.foldl
    (fun f t => t.dependencies.foldl
      (fun g dep => if resolvable tasks dep then
        (fun x => if x = t.title then g x + 1 else g x) else g) f)
    (fun _ => 0)

/-- The `graph` dict after the build loops (lines 119-132): each task `t`
appends `t.title` to `graph[dep]` for each resolvable dependency
occurrence `dep`, in iteration order. -/
def graph_build (tasks : List Task) : String → List String :=
  tasks.foldl
    (fun f t => t.dependencies.foldl
      (fun g dep => if resolvable tasks dep then pushKey g dep t.title else g) f)
    (fun _ => [])

/-- The sort key `task_map[x]["priority"]` (line 143); in every state the
loop reaches, `x` is a title, so the lookup succeeds. -/
def priorityKey (tasks : List Task) (x : String) : Int :=
  ((task_map tasks x).map Task.priority).getD 0

/-- Stable insertion of `x` into an already-sorted list: `x` goes before
the first element whose key is not smaller. -/
def insertByKey (tasks : List Task) (x : String) : List String → List String
  | [] => [x]
  | y :: ys =>
    if priorityKey tasks y < priorityKey tasks x then y :: insertByKey tasks x ys
    else x :: y :: ys

/-- `queue.sort(key=lambda x: task_map[x]["priority"])` (line 143).
Python's sort is stable, and any stable sort by the same key produces the
same list, so this insertion sort is extensionally the source's sort. -/
def sortByPriorityKey (tasks : List Task) : List String → List String
  | [] => []
  | x :: xs => insertByKey tasks x (sortByPriorityKey tasks xs)

/-- The inner loop over `graph[current]` (lines 148-151): decrement each
neighbour's in-degree; a neighbour reaching exactly 0 is appended to the
queue. -/
def process_neighbors (inDeg : String → Int) (queue : List String) :
    List String → (String → Int) × List String
  | [] => (inDeg, queue)
  | n :: ns =>
    let d := inDeg n - 1
    let inDeg' : String → Int := fun x => if x = n then d else inDeg x
    if d = 0 then process_neighbors inDeg' (queue ++ [n]) ns
    else process_neighbors inDeg' queue ns

/-- The `while queue` loop (lines 141-151): re-sort the queue by priority,
pop the front, emit `task_map[current]`, process its neighbours.  `fuel`
only bounds the iteration count; each popped element is a title and a
title enters the queue at most once (it is enqueued exactly when its
monotonically decreasing in-degree reaches 0), so any
`fuel > tasks.length` makes the loop stop only on an empty queue, exactly
like the source. -/
def topo_loop (tasks : List Task) (graph : String → List String) :
    Nat → (String → Int) → List String → List Task
  | 0, _, _ => []
  | fuel+1, inDeg, queue =>
    match sortByPriorityKey tasks queue with
    | [] => []
    | current :: rest =>
      let p := process_neighbors inDeg rest (graph current)
      (task_map tasks current).toList ++ topo_loop tasks graph fuel p.1 p.2

/-- The initial queue (lines 135-138): every key whose in-degree is 0, in
key order. -/
def seedQueue (tasks : List Task) : List String :=
  (titleKeys tasks).filter fun x => in_degree_build tasks x == 0

/-- `TaskManager.sort_tasks_by_dependencies` (lines 113-153). -/
def sort_tasks_by_dependencies (tasks : List Task) : List Task :=
  topo_loop tasks (graph_build tasks) (tasks.length + 1)
    (in_degree_build tasks) (seedQueue tasks)

/-! ## Dispatcher (`assign_tasks`, `send_task_to_agent`,
`check_and_assign_waiting_tasks`) -/

/-- An entry of `self.composer_agent.agents` as read by the dispatcher
(task_manager.py line 178): only the port is used. -/
structure AgentInfo where
  port : Nat
  deriving DecidableEq, Repr

/-- The outcome of the `POST /task` request in `send_task_to_agent`
(lines 190-210): a 200 response with a parsed JSON body (whose `status`
and `result` fields may be absent), a non-200 response, or a raised
exception (connection failure etc.). -/
inductive SubmitResp where
  | ok (bodyStatus : Option String) (bodyResult : Option String)
  | non200 (code : Nat)
  | exn (msg : String)
  deriving DecidableEq, Repr

/-- `self.task_status[tid]["status"] = v` at a site where the entry is
known to exist (a no-op stands in for the impossible `KeyError`). -/
def writeStatus (st : TaskManagerState) (tid : String) (v : String) : TaskManagerState :=
  match st.taskStatus tid with
  | none => st
  | some r =>
    { st with taskStatus :=
        fun x => if x = tid then some { r with status := v } else st.taskStatus x }

/-- `task["result"] = r` (lines 205, 311): the mutated task object is at
every call site an element of `self.tasks`; under the data-model invariant
of unique ids it is the unique element with that id. -/
def set_result_by_id (tid : String) (r : String) : List Task → List Task
  | [] => []
  | t :: ts =>
    if t.id == tid then { t with result := some r } :: ts
    else t :: set_result_by_id tid r ts

/-- The body of `TaskManager.send_task_to_agent` (lines 169-213) with the
recursive cascade call abstracted as `cascade`.  The oracle gives the
response to the `n`-th submission of the run (`n` = number of earlier
`send_task_to_agent` calls, read off the instrumentation log).  The whole
body runs inside `try`; every raise lands in the logging `except`, so the
function returns the state accumulated at the raise point.  In the 200
branch, if the task id has no `task_status` entry, the `"in_progress"`
write raises a `KeyError` which the `except` catches, abandoning the rest
of the body. -/
def send_body (agents : String → Option AgentInfo) (oracle : Nat → SubmitResp)
    (cascade : TaskManagerState → TaskManagerState)
    (st0 : TaskManagerState) (task : Task) : TaskManagerState :=
  let n := st0.submitted.length
  let st1 : TaskManagerState := { st0 with submitted := st0.submitted ++ [task.id] }
  match agents task.agent with
  | none => st1
  | some _ =>
    match oracle n with
    | .exn _ => st1
    | .non200 _ => st1
    | .ok bodyStatus bodyResult =>
      match st1.taskStatus task.id with
      | none => st1
      | some _ =>
        let st2 := writeStatus st1 task.id "in_progress"
        if bodyStatus == some "completed" then
          let st3 := writeStatus st2 task.id "completed"
          let st4 : TaskManagerState :=
            { st3 with tasks := set_result_by_id task.id (bodyResult.getD "") st3.tasks }
          cascade st4
        else st2

/-- `self.task_status[tid]["status"] = "assigned"` (lines 108 and 221)
once the entry `r` has been read off the dict. -/
def write_assigned (st' : TaskManagerState) (tid : String) (r : StatusRec) :
    TaskManagerState :=
  { st' with taskStatus :=
      fun x => if x = tid then some { r with status := "assigned" } else st'.taskStatus x }

theorem write_assigned_submitted (s : TaskManagerState) (tid : String) (r : StatusRec) :
    (write_assigned s tid r).submitted = s.submitted := rfl

theorem write_assigned_tasks (s : TaskManagerState) (tid : String) (r : StatusRec) :
    (write_assigned s tid r).tasks = s.tasks := rfl

theorem write_assigned_status_self (s : TaskManagerState) (tid : String) (r : StatusRec) :
    (write_assigned s tid r).taskStatus tid = some { r with status := "assigned" } := by
  simp [write_assigned]

theorem write_assigned_status_ne (s : TaskManagerState) (tid : String) (r : StatusRec)
    (x : String) (h : x ≠ tid) :
    (write_assigned s tid r).taskStatus x = s.taskStatus x := by
  simp [write_assigned, h]

/-- The loop of `TaskManager.check_and_assign_waiting_tasks`
(lines 215-222), for a given submission function `send`, iterating
positions `k` of `self.tasks` with `rem` positions left.  The
`"assigned"` write on line 221 is a raw indexing: if the entry were
missing the `KeyError` would escape this function (`.error`), to be
caught by the calling `send_task_to_agent`. -/
def check_go (send : TaskManagerState → Task → TaskManagerState) :
    Nat → Nat → TaskManagerState → Except TaskManagerState TaskManagerState
  | 0, _, st => .ok st
  | rem+1, k, st =>
    match st.tasks.get? k with
    | none => check_go send rem (k+1) st
    | some task =>
      if statusOpt st task.id == some "not_started" && can_assign_task st task then
        let st' := send st task
        match st'.taskStatus task.id with
        | none => .error st'
        | some r => check_go send rem (k+1) (write_assigned st' task.id r)
      else check_go send rem (k+1) st

/-- `TaskManager.send_task_to_agent` (lines 169-213).  `fuel` bounds
cascade nesting only: each nested cascade is entered only after the task
just sent moved from `"not_started"` to `"completed"`, so nesting is
bounded by the number of tasks and any `fuel ≥ tasks.length` reproduces
the source exactly. -/
def send_task_to_agent (agents : String → Option AgentInfo) (oracle : Nat → SubmitResp) :
    Nat → TaskManagerState → Task → TaskManagerState
  | 0 => send_body agents oracle (fun st4 => st4)
  | fuel+1 => send_body agents oracle (fun st4 =>
      match check_go (send_task_to_agent agents oracle fuel) st4.tasks.length 0 st4 with
      | .ok s => s
      | .error s => s)

/-- `TaskManager.check_and_assign_waiting_tasks` (lines 215-222). -/
def check_and_assign_waiting_tasks (agents : String → Option AgentInfo)
    (oracle : Nat → SubmitResp) (fuel : Nat) (st : TaskManagerState) :
    Except TaskManagerState TaskManagerState :=
  check_go (send_task_to_agent agents oracle fuel) st.tasks.length 0 st

/-- `TaskManager.assign_tasks` (lines 86-111): sort, initialise the status
map for every sorted task, then attempt each task in order, sending the
eligible ones and stamping them `"assigned"` right after the send
returns. -/
def assign_tasks (agents : String → Option AgentInfo) (oracle : Nat → SubmitResp)
    (fuel : Nat) (st : TaskManagerState) : TaskManagerState :=
  if st.tasks.isEmpty then st
  else
    let sorted_tasks := sort_tasks_by_dependencies st.tasks
    let stInit := sorted_tasks.foldl
      (fun s task =>
        { s with taskStatus :=
            fun x => if x = task.id then some ⟨"not_started", task.agent, none, none⟩
                     else s.taskStatus x }) st
    sorted_tasks.foldl
      (fun s task =>
        if can_assign_task s task then
          writeStatus (send_task_to_agent agents oracle fuel s task) task.id "assigned"
        else s) stInit

/-! ## C1, C8, C6 -/

/-- C1 (code bug, evaluated at the failing input): a single dependency-free
task whose worker synchronously answers 200 `{status: "completed", result:
"ok"}`.  `send_task_to_agent` does transition the task to `"completed"` and
record the result, but when it returns, `assign_tasks` (line 108)
unconditionally overwrites the tracked status with `"assigned"`; the same
happens on line 221 of the cascade.  So after the dispatch pass the task is
tracked `"assigned"`, not `"completed"` as the claim states (the result
field does hold `"ok"`). -/
theorem sync_completion_status_overwritten :
    statusOpt (assign_tasks (fun _ => some ⟨8001⟩)
        (fun _ => .ok (some "completed") (some "ok")) 2
        ⟨[⟨"task_1", "T", "d", "developer", 5, [], "not_started", none, none⟩],
          fun _ => none, []⟩) "task_1" = some "assigned" ∧
    statusOpt (assign_tasks (fun _ => some ⟨8001⟩)
        (fun _ => .ok (some "completed") (some "ok")) 2
        ⟨[⟨"task_1", "T", "d", "developer", 5, [], "not_started", none, none⟩],
          fun _ => none, []⟩) "task_1" ≠ some "completed" ∧
    (assign_tasks (fun _ => some ⟨8001⟩)
        (fun _ => .ok (some "completed") (some "ok")) 2
        ⟨[⟨"task_1", "T", "d", "developer", 5, [], "not_started", none, none⟩],
          fun _ => none, []⟩).tasks.map Task.result = [some "ok"] ∧
    (assign_tasks (fun _ => some ⟨8001⟩)
        (fun _ => .ok (some "completed") (some "ok")) 2
        ⟨[⟨"task_1", "T", "d", "developer", 5, [], "not_started", none, none⟩],
          fun _ => none, []⟩).submitted = ["task_1"] := by
  decide

/-- C8: when a submission fails at transport level — owning worker not
registered, non-200 response, or a raised request exception — the whole
`send_task_to_agent` call leaves the task manager state unchanged apart
from the submission having been attempted: in particular the status map is
untouched (so no transition to `"failed"` or any other status), and the
`try/except` wrapping the body means the call returns normally. -/
theorem send_transport_failure_leaves_state (agents : String → Option AgentInfo)
    (oracle : Nat → SubmitResp) (fuel : Nat) (st : TaskManagerState) (task : Task) :
    (agents task.agent = none ∨ (∃ c, oracle st.submitted.length = .non200 c) ∨
      (∃ m, oracle st.submitted.length = .exn m)) →
    send_task_to_agent agents oracle fuel st task =
      { st with submitted := st.submitted ++ [task.id] } := by
  intro h
  have hbody : ∀ cascade, send_body agents oracle cascade st task =
      { st with submitted := st.submitted ++ [task.id] } := by
    intro cascade
    rcases h with h | ⟨c, h⟩ | ⟨m, h⟩ <;>
      cases hA : agents task.agent <;> simp [send_body, h, hA]
  cases fuel <;> simp [send_task_to_agent, hbody]

/-- Witness for C8: a concrete submission to an unregistered worker leaves
the concrete state unchanged except for the submission log. -/
theorem send_transport_failure_leaves_state_witness :
    send_task_to_agent (fun _ => none) (fun _ => .exn "refused") 1
        ⟨[⟨"task_1", "T", "d", "developer", 5, [], "not_started", none, none⟩],
          fun _ => none, []⟩
        ⟨"task_1", "T", "d", "developer", 5, [], "not_started", none, none⟩ =
      ⟨[⟨"task_1", "T", "d", "developer", 5, [], "not_started", none, none⟩],
        fun _ => none, ["task_1"]⟩ :=
  send_transport_failure_leaves_state (fun _ => none) (fun _ => .exn "refused") 1
    ⟨[⟨"task_1", "T", "d", "developer", 5, [], "not_started", none, none⟩],
      fun _ => none, []⟩
    ⟨"task_1", "T", "d", "developer", 5, [], "not_started", none, none⟩
    (Or.inl rfl)

/-- C6 (counterexample): two tasks share the title `"A"` (ids `"1"`, `"2"`)
and `"B"` depends on `"A"`.  The scheduler's `task_map` is a dict
comprehension, so the later task overwrites the earlier one: the emitted
`"A"` task is the one with id `"2"` — the LAST with that title, not the
first as the claim states. -/
theorem dup_title_resolution_counterexample :
    (sort_tasks_by_dependencies
        [⟨"1", "A", "d", "developer", 1, [], "not_started", none, none⟩,
         ⟨"2", "A", "d", "developer", 2, [], "not_started", none, none⟩,
         ⟨"3", "B", "d", "developer", 1, ["A"], "not_started", none, none⟩]).map Task.id
      = ["2", "3"] ∧
    (⟨"1", "A", "d", "developer", 1, [], "not_started", none, none⟩ : Task) ≠
      ⟨"2", "A", "d", "developer", 2, [], "not_started", none, none⟩ := by
  decide

/-- Auxiliary: a successful `task_map` lookup returns a task carrying the
looked-up title. -/
theorem task_map_title {tasks : List Task} {x : String} {t : Task}
    (h : task_map tasks x = some t) : t.title = x := by
  unfold task_map at h
  have := List.find?_some h
  simpa using this

/-- Auxiliary: every task emitted by the topological loop is a `task_map`
image. -/
theorem topo_loop_mem {tasks : List Task} {graph : String → List String}
    {fuel : Nat} {inDeg : String → Int} {queue : List String} {t : Task}
    (h : t ∈ topo_loop tasks graph fuel inDeg queue) :
    ∃ x, task_map tasks x = some t := by
  induction fuel generalizing inDeg queue with
  | zero => simp [topo_loop] at h
  | succ fuel ih =>
    rw [topo_loop] at h
    rcases hs : sortByPriorityKey tasks queue with _ | ⟨current, rest⟩
    · rw [hs] at h; simp at h
    · rw [hs] at h
      rcases List.mem_append.1 h with h | h
      · exact ⟨current, by simpa using (Option.mem_toList.1 h)⟩
      · exact ih h

/-- C6 (amended): dependency resolution is split.  Inside
`sort_tasks_by_dependencies` the title→task map is a dict comprehension,
so every emitted task is the LAST task in the set carrying its title;
`can_assign_task` resolves a dependency title with `next(...)`, i.e. to
the FIRST task carrying it, and that first task's tracked status alone
decides whether the dependency blocks. -/
theorem title_resolution_split (tasks : List Task) :
    (∀ t ∈ sort_tasks_by_dependencies tasks,
        tasks.reverse.find? (fun u => u.title == t.title) = some t) ∧
    (∀ (st : TaskManagerState) (task : Task) (dep : String) (dt : Task),
        dep ∈ task.dependencies →
        st.tasks.find? (fun u => u.title == dep) = some dt →
        statusD st dt.id ≠ "completed" →
        can_assign_task st task = false) := by
  constructor
  · intro t ht
    obtain ⟨x, hx⟩ := topo_loop_mem ht
    have hxt : t.title = x := task_map_title hx
    rw [show (fun u : Task => u.title == t.title) = fun u => u.title == x by
      funext u; rw [hxt]]
    exact hx
  · intro st task dep dt hdep hfind hstat
    rcases hca : can_assign_task st task with _ | _
    · rfl
    · exact absurd (((can_assign_eq_true st task).1 hca) dep hdep dt hfind) hstat

/-- Witness for C6's amended claim at concrete inputs: with two `"A"` tasks
the scheduler emits the last one, and a first-match `"A"` dependency that
is not completed blocks `can_assign_task`. -/
theorem title_resolution_split_witness :
    (List.reverse
        [⟨"1", "A", "d", "developer", 1, [], "not_started", none, none⟩,
         ⟨"2", "A", "d", "developer", 2, [], "not_started", none, none⟩,
         (⟨"3", "B", "d", "developer", 1, ["A"], "not_started", none, none⟩ : Task)]).find?
        (fun u => u.title ==
          (⟨"2", "A", "d", "developer", 2, [], "not_started", none, none⟩ : Task).title) =
      some ⟨"2", "A", "d", "developer", 2, [], "not_started", none, none⟩ ∧
    can_assign_task
      ⟨[⟨"1", "A", "d", "developer", 1, [], "not_started", none, none⟩,
        ⟨"2", "A", "d", "developer", 2, [], "not_started", none, none⟩],
        fun _ => none, []⟩
      ⟨"3", "B", "d", "developer", 1, ["A"], "not_started", none, none⟩ = false := by
  constructor
  · exact (title_resolution_split
      [⟨"1", "A", "d", "developer", 1, [], "not_started", none, none⟩,
       ⟨"2", "A", "d", "developer", 2, [], "not_started", none, none⟩,
       ⟨"3", "B", "d", "developer", 1, ["A"], "not_started", none, none⟩]).1
      ⟨"2", "A", "d", "developer", 2, [], "not_started", none, none⟩ (by decide)
  · exact (title_resolution_split
      [⟨"1", "A", "d", "developer", 1, [], "not_started", none, none⟩,
       ⟨"2", "A", "d", "developer", 2, [], "not_started", none, none⟩]).2
      ⟨[⟨"1", "A", "d", "developer", 1, [], "not_started", none, none⟩,
        ⟨"2", "A", "d", "developer", 2, [], "not_started", none, none⟩],
        fun _ => none, []⟩
      ⟨"3", "B", "d", "developer", 1, ["A"], "not_started", none, none⟩
      "A" ⟨"1", "A", "d", "developer", 1, [], "not_started", none, none⟩
      (by decide) (by decide) (by decide)

/-! ## C4: the synchronous-completion cascade

The cascade property is proved through a preservation relation `Pres`
between a state and any state a dispatch step can evolve it into. -/

/-- Unwrap the cascade result exactly as `send_task_to_agent` does: a
`KeyError` escaping `check_and_assign_waiting_tasks` is caught by the
calling `send_task_to_agent`'s `except`, which keeps the state reached at
the raise. -/
def excOut : Except TaskManagerState TaskManagerState → TaskManagerState
  | .ok s => s
  | .error s => s

/-- A task with its (only dispatcher-mutable) `result` field blanked;
two tasks with the same `eraseResult` image differ at most in `result`. -/
def eraseResult (t : Task) : Task := { t with result := none }

theorem eraseResult_id (t : Task) : (eraseResult t).id = t.id := rfl

theorem eraseResult_dependencies (t : Task) :
    (eraseResult t).dependencies = t.dependencies := rfl

/-- What a dispatch step may do to the state: the submission log only
grows, and every task id whose status entry changed was submitted in the
step; status entries are never deleted; entries with status `"completed"`
are never touched; task records change at most in their `result` field. -/
def Pres (st st' : TaskManagerState) : Prop :=
  (∃ suffix, st'.submitted = st.submitted ++ suffix ∧
    ∀ tid, st'.taskStatus tid ≠ st.taskStatus tid → tid ∈ suffix) ∧
  (∀ tid r, st.taskStatus tid = some r → ∃ r', st'.taskStatus tid = some r') ∧
  (∀ tid r, st.taskStatus tid = some r → r.status = "completed" →
    st'.taskStatus tid = some r) ∧
  st.tasks.map eraseResult = st'.tasks.map eraseResult

theorem Pres.refl (st : TaskManagerState) : Pres st st :=
  ⟨⟨[], by simp, fun _ h => absurd rfl h⟩, fun _ r h => ⟨r, h⟩, fun _ _ h _ => h, rfl⟩

theorem Pres.trans {s1 s2 s3 : TaskManagerState} (h12 : Pres s1 s2) (h23 : Pres s2 s3) :
    Pres s1 s3 := by
  obtain ⟨⟨a, ha, hca⟩, hk12, hc12, hs12⟩ := h12
  obtain ⟨⟨b, hb, hcb⟩, hk23, hc23, hs23⟩ := h23
  refine ⟨⟨a ++ b, by rw [hb, ha, List.append_assoc], ?_⟩, ?_, ?_, hs12.trans hs23⟩
  · intro tid hch
    by_cases h2 : s2.taskStatus tid = s1.taskStatus tid
    · exact List.mem_append.2 (Or.inr (hcb tid (by rw [h2]; exact hch)))
    · exact List.mem_append.2 (Or.inl (hca tid h2))
  · intro tid r h
    obtain ⟨r', h'⟩ := hk12 tid r h
    exact hk23 tid r' h'
  · intro tid r h hc
    exact hc23 tid r (hc12 tid r h hc) hc

/-- Appending to the submission log alone is a `Pres` step. -/
theorem Pres_log (st : TaskManagerState) (s : List String) :
    Pres st { st with submitted := st.submitted ++ s } :=
  ⟨⟨s, rfl, fun _ h => absurd rfl h⟩, fun _ r h => ⟨r, h⟩, fun _ _ h _ => h, rfl⟩

theorem set_result_map_erase (tid : String) (r : String) :
    ∀ l : List Task, (set_result_by_id tid r l).map eraseResult = l.map eraseResult := by
  intro l
  induction l with
  | nil => rfl
  | cons t ts ih =>
    by_cases h : (t.id == tid) = true
    · simp [set_result_by_id, h, eraseResult]
    · simp only [set_result_by_id, h]
      simp [ih]

theorem writeStatus_submitted (st : TaskManagerState) (tid v : String) :
    (writeStatus st tid v).submitted = st.submitted := by
  unfold writeStatus
  cases st.taskStatus tid <;> rfl

theorem writeStatus_tasks (st : TaskManagerState) (tid v : String) :
    (writeStatus st tid v).tasks = st.tasks := by
  unfold writeStatus
  cases st.taskStatus tid <;> rfl

theorem writeStatus_taskStatus_ne (st : TaskManagerState) (tid v x : String)
    (h : x ≠ tid) : (writeStatus st tid v).taskStatus x = st.taskStatus x := by
  unfold writeStatus
  cases st.taskStatus tid with
  | none => rfl
  | some r => simp [h]

theorem writeStatus_taskStatus_self (st : TaskManagerState) (tid v : String)
    (r : StatusRec) (h : st.taskStatus tid = some r) :
    (writeStatus st tid v).taskStatus tid = some { r with status := v } := by
  unfold writeStatus
  rw [h]
  simp

/-- The `"in_progress"` write of the 200 branch is a `Pres` step. -/
theorem Pres_write_one (st : TaskManagerState) (task : Task) (rec0 : StatusRec)
    (hT : st.taskStatus task.id = some rec0)
    (hguard : statusOpt st task.id ≠ some "completed") :
    Pres st (writeStatus { st with submitted := st.submitted ++ [task.id] }
      task.id "in_progress") := by
  refine ⟨⟨[task.id], by rw [writeStatus_submitted], ?_⟩, ?_, ?_, ?_⟩
  · intro tid h
    by_cases hx : tid = task.id
    · simp [hx]
    · rw [writeStatus_taskStatus_ne _ _ _ _ hx] at h
      exact absurd rfl h
  · intro tid r h
    by_cases hx : tid = task.id
    · subst hx
      exact ⟨_, writeStatus_taskStatus_self _ task.id _ rec0 hT⟩
    · rw [writeStatus_taskStatus_ne _ _ _ _ hx]
      exact ⟨r, h⟩
  · intro tid r h hc
    by_cases hx : tid = task.id
    · subst hx
      exact absurd (by simp [statusOpt, h, hc]) hguard
    · rw [writeStatus_taskStatus_ne _ _ _ _ hx]
      exact h
  · rw [writeStatus_tasks]

/-- The `"in_progress"` + `"completed"` writes followed by the result-field
write of the 200-completed branch form a `Pres` step. -/
theorem Pres_write_completed (st : TaskManagerState) (task : Task) (rec0 : StatusRec)
    (res : String) (hT : st.taskStatus task.id = some rec0)
    (hguard : statusOpt st task.id ≠ some "completed") :
    Pres st
      (let st3 := writeStatus (writeStatus { st with submitted := st.submitted ++ [task.id] }
        task.id "in_progress") task.id "completed"
      { st3 with tasks := set_result_by_id task.id res st3.tasks }) := by
  have hne : ∀ x, x ≠ task.id →
      (writeStatus (writeStatus { st with submitted := st.submitted ++ [task.id] }
        task.id "in_progress") task.id "completed").taskStatus x = st.taskStatus x := by
    intro x hx
    rw [writeStatus_taskStatus_ne _ _ _ _ hx, writeStatus_taskStatus_ne _ _ _ _ hx]
  have hself : (writeStatus (writeStatus { st with submitted := st.submitted ++ [task.id] }
      task.id "in_progress") task.id "completed").taskStatus task.id =
      some { rec0 with status := "completed" } :=
    writeStatus_taskStatus_self _ task.id "completed" { rec0 with status := "in_progress" }
      (writeStatus_taskStatus_self _ task.id "in_progress" rec0 hT)
  refine ⟨⟨[task.id], by simp [writeStatus_submitted], ?_⟩, ?_, ?_, ?_⟩
  · intro tid h
    by_cases hx : tid = task.id
    · simp [hx]
    · exact absurd (hne tid hx) h
  · intro tid r h
    by_cases hx : tid = task.id
    · subst hx
      exact ⟨_, hself⟩
    · rw [hne tid hx]
      exact ⟨r, h⟩
  · intro tid r h hc
    by_cases hx : tid = task.id
    · subst hx
      exact absurd (by simp [statusOpt, h, hc]) hguard
    · rw [hne tid hx]
      exact h
  · show st.tasks.map eraseResult = (set_result_by_id task.id res _).map eraseResult
    rw [set_result_map_erase, writeStatus_tasks, writeStatus_tasks]

/-- `send_body` is a `Pres` step, provided the submitted task is not
currently tracked `"completed"` and the cascade continuation is itself a
`Pres` step. -/
theorem send_body_pres (agents : String → Option AgentInfo) (oracle : Nat → SubmitResp)
    (cascade : TaskManagerState → TaskManagerState) (st : TaskManagerState) (task : Task)
    (hguard : statusOpt st task.id ≠ some "completed")
    (hcas : ∀ s, Pres s (cascade s)) :
    Pres st (send_body agents oracle cascade st task) := by
  unfold send_body
  dsimp only
  cases hA : agents task.agent with
  | none => exact Pres_log st [task.id]
  | some a =>
    cases hO : oracle st.submitted.length with
    | exn m => exact Pres_log st [task.id]
    | non200 c => exact Pres_log st [task.id]
    | ok bodyStatus bodyResult =>
      cases hT : st.taskStatus task.id with
      | none => exact Pres_log st [task.id]
      | some rec0 =>
        cases hB : (bodyStatus == some "completed") with
        | false =>
          simp only [hB, Bool.false_eq_true, if_false]
          exact Pres_write_one st task rec0 hT hguard
        | true =>
          simp only [hB, if_true]
          exact (Pres_write_completed st task rec0 (bodyResult.getD "") hT hguard).trans
            (hcas _)

/-- `send_body` first logs the submitted task id; the log then only
grows. -/
theorem send_body_log (agents : String → Option AgentInfo) (oracle : Nat → SubmitResp)
    (cascade : TaskManagerState → TaskManagerState) (st : TaskManagerState) (task : Task)
    (hcas : ∀ s : TaskManagerState, ∃ g, (cascade s).submitted = s.submitted ++ g) :
    ∃ s', (send_body agents oracle cascade st task).submitted =
      st.submitted ++ task.id :: s' := by
  unfold send_body
  dsimp only
  cases hA : agents task.agent with
  | none => exact ⟨[], rfl⟩
  | some a =>
    cases hO : oracle st.submitted.length with
    | exn m => exact ⟨[], rfl⟩
    | non200 c => exact ⟨[], rfl⟩
    | ok bodyStatus bodyResult =>
      cases hT : st.taskStatus task.id with
      | none => exact ⟨[], rfl⟩
      | some rec0 =>
        cases hB : (bodyStatus == some "completed") with
        | false =>
          simp only [hB, Bool.false_eq_true, if_false]
          exact ⟨[], by rw [writeStatus_submitted]⟩
        | true =>
          simp only [hB, if_true]
          obtain ⟨g, hg⟩ := hcas _
          refine ⟨g, ?_⟩
          rw [hg]
          dsimp only
          rw [writeStatus_submitted, writeStatus_submitted]
          simp

/-- The cascade loop only grows the submission log. -/
theorem check_go_log (send : TaskManagerState → Task → TaskManagerState)
    (hs : ∀ st t, ∃ g, (send st t).submitted = st.submitted ++ g) :
    ∀ rem k st, ∃ g, (excOut (check_go send rem k st)).submitted = st.submitted ++ g := by
  intro rem
  induction rem with
  | zero => exact fun k st => ⟨[], by simp [check_go, excOut]⟩
  | succ rem ih =>
    intro k st
    rw [check_go]
    cases hG : st.tasks.get? k with
    | none => exact ih (k+1) st
    | some task =>
      dsimp only
      cases hE : (statusOpt st task.id == some "not_started" && can_assign_task st task) with
      | false =>
        simp only [hE, Bool.false_eq_true, if_false]
        exact ih (k+1) st
      | true =>
        simp only [hE, if_true]
        obtain ⟨g1, hg1⟩ := hs st task
        cases hT : (send st task).taskStatus task.id with
        | none => exact ⟨g1, by simp [excOut, hg1]⟩
        | some r =>
          obtain ⟨g2, hg2⟩ := ih (k+1) (write_assigned (send st task) task.id r)
          exact ⟨g1 ++ g2, by
            rw [hg2, write_assigned_submitted, hg1, List.append_assoc]⟩

/-- `send_task_to_agent` logs the submitted task id first and only grows
the log afterwards. -/
theorem send_log (agents : String → Option AgentInfo) (oracle : Nat → SubmitResp) :
    ∀ fuel st task, ∃ s, (send_task_to_agent agents oracle fuel st task).submitted =
      st.submitted ++ task.id :: s := by
  intro fuel
  induction fuel with
  | zero =>
    intro st task
    exact send_body_log agents oracle _ st task (fun s => ⟨[], by simp⟩)
  | succ fuel ih =>
    intro st task
    refine send_body_log agents oracle _ st task (fun s => ?_)
    have h := check_go_log (send_task_to_agent agents oracle fuel)
      (fun st2 t => (ih st2 t).elim fun s' hh => ⟨t.id :: s', hh⟩) s.tasks.length 0 s
    obtain ⟨g, hg⟩ := h
    exact ⟨g, hg⟩

/-- One full eligible step of the cascade loop — submitting the task and
stamping it `"assigned"` — is a `Pres` step. -/
theorem check_step_pres (send : TaskManagerState → Task → TaskManagerState)
    (hsendP : ∀ st t, statusOpt st t.id = some "not_started" → Pres st (send st t))
    (hsendL : ∀ st t, ∃ s, (send st t).submitted = st.submitted ++ t.id :: s)
    (st : TaskManagerState) (task : Task) (r : StatusRec)
    (hE : statusOpt st task.id = some "not_started")
    (hT : (send st task).taskStatus task.id = some r) :
    Pres st (write_assigned (send st task) task.id r) := by
  obtain ⟨⟨sfx, hs, hch⟩, hk, hc, hsim⟩ := hsendP st task hE
  obtain ⟨s2, hs2⟩ := hsendL st task
  have hsfx : sfx = task.id :: s2 :=
    List.append_cancel_left (by rw [← hs, hs2])
  refine ⟨⟨sfx, by rw [write_assigned_submitted]; exact hs, ?_⟩, ?_, ?_,
    by rw [write_assigned_tasks]; exact hsim⟩
  · intro tid h
    by_cases hx : tid = task.id
    · rw [hsfx, hx]
      exact List.mem_cons_self _ _
    · refine hch tid ?_
      rw [write_assigned_status_ne _ _ _ _ hx] at h
      exact h
  · intro tid r' h
    by_cases hx : tid = task.id
    · subst hx
      exact ⟨{ r with status := "assigned" }, write_assigned_status_self _ _ _⟩
    · rw [write_assigned_status_ne _ _ _ _ hx]
      exact hk tid r' h
  · intro tid r' h hcomp
    by_cases hx : tid = task.id
    · subst hx
      have hns : r'.status = "not_started" := by
        unfold statusOpt at hE
        rw [h] at hE
        simpa using hE
      rw [hcomp] at hns
      exact absurd hns (by decide)
    · rw [write_assigned_status_ne _ _ _ _ hx]
      exact hc tid r' h hcomp

/-- The cascade loop is a `Pres` step whenever the submission function is
one on `"not_started"` tasks. -/
theorem check_go_pres (send : TaskManagerState → Task → TaskManagerState)
    (hsendP : ∀ st t, statusOpt st t.id = some "not_started" → Pres st (send st t))
    (hsendL : ∀ st t, ∃ s, (send st t).submitted = st.submitted ++ t.id :: s) :
    ∀ rem k st, Pres st (excOut (check_go send rem k st)) := by
  intro rem
  induction rem with
  | zero => exact fun k st => Pres.refl st
  | succ rem ih =>
    intro k st
    rw [check_go]
    cases hG : st.tasks.get? k with
    | none => exact ih (k+1) st
    | some task =>
      dsimp only
      cases hE : (statusOpt st task.id == some "not_started" && can_assign_task st task) with
      | false =>
        simp only [hE, Bool.false_eq_true, if_false]
        exact ih (k+1) st
      | true =>
        simp only [hE, if_true]
        have hEn : statusOpt st task.id = some "not_started" := by
          have hE2 := hE
          rw [Bool.and_eq_true] at hE2
          exact eq_of_beq hE2.1
        cases hT : (send st task).taskStatus task.id with
        | none => exact hsendP st task hEn
        | some r =>
          exact (check_step_pres send hsendP hsendL st task r hEn hT).trans (ih (k+1) _)

/-- The cascade loop never lets the `KeyError` of its `"assigned"` write
escape: a task is sent only when its status entry exists (it reads
`"not_started"`), and entries are never deleted, so the raw write after
the send always finds its entry. -/
theorem check_go_ok (send : TaskManagerState → Task → TaskManagerState)
    (hkeep : ∀ st t, statusOpt st t.id = some "not_started" →
      ∀ tid r, st.taskStatus tid = some r → ∃ r', (send st t).taskStatus tid = some r') :
    ∀ rem k st, ∃ out, check_go send rem k st = .ok out := by
  intro rem
  induction rem with
  | zero => exact fun k st => ⟨st, rfl⟩
  | succ rem ih =>
    intro k st
    rw [check_go]
    cases hG : st.tasks.get? k with
    | none => exact ih (k+1) st
    | some task =>
      dsimp only
      cases hE : (statusOpt st task.id == some "not_started" && can_assign_task st task) with
      | false =>
        simp only [hE, Bool.false_eq_true, if_false]
        exact ih (k+1) st
      | true =>
        simp only [hE, if_true]
        have hEn : statusOpt st task.id = some "not_started" := by
          have hE2 := hE
          rw [Bool.and_eq_true] at hE2
          exact eq_of_beq hE2.1
        have hentry : ∃ r0, st.taskStatus task.id = some r0 := by
          unfold statusOpt at hEn
          cases hTT : st.taskStatus task.id with
          | none => rw [hTT] at hEn; simp at hEn
          | some r0 => exact ⟨r0, rfl⟩
        obtain ⟨r0, hr0⟩ := hentry
        obtain ⟨r', hr'⟩ := hkeep st task hEn task.id r0 hr0
        rw [hr']
        exact ih (k+1) _

/-- `send_task_to_agent` is a `Pres` step whenever the submitted task is
not currently tracked `"completed"`. -/
theorem send_pres (agents : String → Option AgentInfo) (oracle : Nat → SubmitResp) :
    ∀ fuel st task, statusOpt st task.id ≠ some "completed" →
      Pres st (send_task_to_agent agents oracle fuel st task) := by
  intro fuel
  induction fuel with
  | zero =>
    intro st task h
    exact send_body_pres agents oracle _ st task h (fun s => Pres.refl s)
  | succ fuel ih =>
    intro st task h
    refine send_body_pres agents oracle _ st task h (fun s => ?_)
    exact check_go_pres (send_task_to_agent agents oracle fuel)
      (fun st2 t ht => ih st2 t (by rw [ht]; simp))
      (send_log agents oracle fuel) s.tasks.length 0 s

/-- Title lookup only depends on the `eraseResult` image of the task
list. -/
theorem find_title_erase (l l' : List Task)
    (hsim : l.map eraseResult = l'.map eraseResult) (dep : String) :
    (l.find? (fun t => t.title == dep)).map eraseResult =
      (l'.find? (fun t => t.title == dep)).map eraseResult := by
  have h1 : ∀ m : List Task, (m.map eraseResult).find? (fun t => t.title == dep) =
      (m.find? (fun t => t.title == dep)).map eraseResult := by
    intro m
    rw [List.find?_map]
    rfl
  rw [← h1 l, ← h1 l', hsim]

/-- `can_assign_task` transports along a `Pres` step (completed
dependencies stay completed, titles and dependency lists never change). -/
theorem can_assign_pres {st st' : TaskManagerState} (hP : Pres st st') {t t' : Task}
    (ht : eraseResult t = eraseResult t') (hca : can_assign_task st t = true) :
    can_assign_task st' t' = true := by
  rw [can_assign_eq_true] at hca ⊢
  intro dep hdep dt' hfind'
  have hdeps : t'.dependencies = t.dependencies := by
    rw [← eraseResult_dependencies t', ← eraseResult_dependencies t, ht]
  rw [hdeps] at hdep
  have hcorr := find_title_erase st.tasks st'.tasks hP.2.2.2 dep
  rw [hfind'] at hcorr
  cases hfind : st.tasks.find? (fun u => u.title == dep) with
  | none => rw [hfind] at hcorr; simp at hcorr
  | some dt =>
    rw [hfind] at hcorr
    simp at hcorr
    have hid : dt.id = dt'.id := by
      rw [← eraseResult_id dt, ← eraseResult_id dt', hcorr]
    have hdd := hca dep hdep dt hfind
    unfold statusD at hdd ⊢
    cases hTT : st.taskStatus dt.id with
    | none => rw [hTT] at hdd; simp at hdd
    | some r =>
      rw [hTT] at hdd
      simp at hdd
      rw [← hid, hP.2.2.1 dt.id r hTT hdd]
      simp [hdd]

/-- Transport of the `j`-th task along an `eraseResult`-equal task list. -/
theorem get_erase_eq {l l' : List Task} (h : l.map eraseResult = l'.map eraseResult)
    (j : Nat) (hj : j < l.length) (hj' : j < l'.length) :
    eraseResult (l.get ⟨j, hj⟩) = eraseResult (l'.get ⟨j, hj'⟩) := by
  have h1 := congrArg (fun m : List Task => m.get? j) h
  simp only [List.get?_map, List.get?_eq_get hj, List.get?_eq_get hj',
    Option.map_some'] at h1
  exact Option.some_inj.1 h1

/-- The core cascade property: if, when the cascade loop stands at
position `k`, the task at position `j ≥ k` is tracked `"not_started"` and
all its resolvable dependencies are completed, then by the time the loop
finishes, that task's id has been passed to the submission function. -/
theorem check_go_submits (send : TaskManagerState → Task → TaskManagerState)
    (hsendP : ∀ st t, statusOpt st t.id = some "not_started" → Pres st (send st t))
    (hsendL : ∀ st t, ∃ s, (send st t).submitted = st.submitted ++ t.id :: s) :
    ∀ rem k st j (hj : j < st.tasks.length),
      j < k + rem → k ≤ j →
      statusOpt st (st.tasks.get ⟨j, hj⟩).id = some "not_started" →
      can_assign_task st (st.tasks.get ⟨j, hj⟩) = true →
      (st.tasks.get ⟨j, hj⟩).id ∈ (excOut (check_go send rem k st)).submitted := by
  intro rem
  induction rem with
  | zero =>
    intro k st j hj hlt hle _ _
    exact absurd hlt (by omega)
  | succ rem ih =>
    intro k st j hj hlt hle hstat hca
    rw [check_go]
    by_cases hkj : k = j
    · subst hkj
      rw [List.get?_eq_get hj]
      dsimp only
      have hcond : (statusOpt st (st.tasks.get ⟨k, hj⟩).id == some "not_started" &&
          can_assign_task st (st.tasks.get ⟨k, hj⟩)) = true := by
        rw [Bool.and_eq_true]
        exact ⟨by rw [hstat]; decide, hca⟩
      simp only [hcond, if_true]
      obtain ⟨s2, hs2⟩ := hsendL st (st.tasks.get ⟨k, hj⟩)
      have hmem : (st.tasks.get ⟨k, hj⟩).id ∈
          (send st (st.tasks.get ⟨k, hj⟩)).submitted := by
        rw [hs2]
        exact List.mem_append.2 (Or.inr (List.mem_cons_self _ _))
      cases hT : (send st (st.tasks.get ⟨k, hj⟩)).taskStatus (st.tasks.get ⟨k, hj⟩).id with
      | none => simpa [excOut] using hmem
      | some r =>
        obtain ⟨g, hg⟩ := check_go_log send
          (fun st2 t => (hsendL st2 t).elim fun s3 hh => ⟨t.id :: s3, hh⟩) rem (k+1)
          (write_assigned (send st (st.tasks.get ⟨k, hj⟩)) (st.tasks.get ⟨k, hj⟩).id r)
        rw [hg, write_assigned_submitted]
        exact List.mem_append.2 (Or.inl hmem)
    · have hkj2 : k < j := lt_of_le_of_ne hle hkj
      cases hG : st.tasks.get? k with
      | none => exact ih (k+1) st j hj (by omega) (by omega) hstat hca
      | some task =>
        dsimp only
        cases hE : (statusOpt st task.id == some "not_started" && can_assign_task st task) with
        | false =>
          simp only [hE, Bool.false_eq_true, if_false]
          exact ih (k+1) st j hj (by omega) (by omega) hstat hca
        | true =>
          simp only [hE, if_true]
          have hEn : statusOpt st task.id = some "not_started" := by
            have hE2 := hE
            rw [Bool.and_eq_true] at hE2
            exact eq_of_beq hE2.1
          have hentry : ∃ r0, st.taskStatus task.id = some r0 := by
            unfold statusOpt at hEn
            cases hTT : st.taskStatus task.id with
            | none => rw [hTT] at hEn; simp at hEn
            | some r0 => exact ⟨r0, rfl⟩
          obtain ⟨r0, hr0⟩ := hentry
          obtain ⟨r1, hr1⟩ := (hsendP st task hEn).2.1 task.id r0 hr0
          cases hT : (send st task).taskStatus task.id with
          | none => rw [hT] at hr1; exact absurd hr1 (by simp)
          | some r =>
            have hstep := check_step_pres send hsendP hsendL st task r hEn hT
            by_cases hmem : (st.tasks.get ⟨j, hj⟩).id ∈
                (write_assigned (send st task) task.id r).submitted
            · obtain ⟨g, hg⟩ := check_go_log send
                (fun s3 t => (hsendL s3 t).elim fun s4 hh => ⟨t.id :: s4, hh⟩) rem (k+1)
                (write_assigned (send st task) task.id r)
              rw [hg]
              exact List.mem_append.2 (Or.inl hmem)
            · obtain ⟨⟨sfx, hs, hch⟩, hk2, hc2, hsim⟩ := hstep
              have hunch : (write_assigned (send st task) task.id r).taskStatus
                    (st.tasks.get ⟨j, hj⟩).id =
                  st.taskStatus (st.tasks.get ⟨j, hj⟩).id := by
                by_contra hne
                exact hmem (by
                  rw [hs]
                  exact List.mem_append.2 (Or.inr (hch _ hne)))
              have hlen : st.tasks.length =
                  (write_assigned (send st task) task.id r).tasks.length := by
                have h5 := congrArg List.length hsim
                simpa using h5
              have hj2 : j < (write_assigned (send st task) task.id r).tasks.length :=
                hlen ▸ hj
              have hge := get_erase_eq hsim j hj hj2
              have hid2 : ((write_assigned (send st task) task.id r).tasks.get ⟨j, hj2⟩).id =
                  (st.tasks.get ⟨j, hj⟩).id := by
                rw [← eraseResult_id, ← hge, eraseResult_id]
              have hstat2 : statusOpt (write_assigned (send st task) task.id r)
                  (st.tasks.get ⟨j, hj⟩).id = some "not_started" := by
                unfold statusOpt
                rw [hunch]
                exact hstat
              have hca2 := can_assign_pres ⟨⟨sfx, hs, hch⟩, hk2, hc2, hsim⟩ hge hca
              have hres := ih (k+1) _ j hj2 (by omega) (by omega)
                (by rw [hid2]; exact hstat2) hca2
              rw [hid2] at hres
              exact hres

/-- C4: whenever a task is tracked `"not_started"` with all its resolvable
dependencies completed at the moment a synchronous completion triggers the
cascade, `check_and_assign_waiting_tasks` completes without an escaping
exception and `send_task_to_agent` is called on that task before the
cascade (and hence the dispatch pass containing it) returns to the poll
loop. -/
theorem cascade_assigns_eligible (agents : String → Option AgentInfo)
    (oracle : Nat → SubmitResp) (fuel : Nat) (st : TaskManagerState)
    (j : Nat) (hj : j < st.tasks.length)
    (hstat : statusOpt st (st.tasks.get ⟨j, hj⟩).id = some "not_started")
    (hca : can_assign_task st (st.tasks.get ⟨j, hj⟩) = true)
    (hsub : st.submitted = []) :
    ∃ st', check_and_assign_waiting_tasks agents oracle fuel st = .ok st' ∧
      (st.tasks.get ⟨j, hj⟩).id ∈ st'.submitted := by
  obtain ⟨out, hout⟩ := check_go_ok (send_task_to_agent agents oracle fuel)
    (fun st2 t ht tid r hr =>
      (send_pres agents oracle fuel st2 t (by rw [ht]; simp)).2.1 tid r hr)
    st.tasks.length 0 st
  refine ⟨out, hout, ?_⟩
  have h := check_go_submits (send_task_to_agent agents oracle fuel)
    (fun st2 t ht => send_pres agents oracle fuel st2 t (by rw [ht]; simp))
    (send_log agents oracle fuel)
    st.tasks.length 0 st j hj (by omega) (by omega) hstat hca
  rw [hout] at h
  simpa [excOut] using h

/-- Witness for C4: tasks `A` (tracked completed) and `B` (not started,
depending on `A`); the cascade submits `B` within the pass. -/
theorem cascade_assigns_eligible_witness :
    ∃ st', check_and_assign_waiting_tasks (fun _ => some ⟨8001⟩) (fun _ => .non200 500) 2
        ⟨[⟨"task_1", "A", "d", "developer", 5, [], "not_started", none, none⟩,
          ⟨"task_2", "B", "d", "developer", 5, ["A"], "not_started", none, none⟩],
          fun x => if x = "task_1" then some ⟨"completed", "developer", none, none⟩
                   else if x = "task_2" then some ⟨"not_started", "developer", none, none⟩
                   else none, []⟩ = .ok st' ∧
      "task_2" ∈ st'.submitted :=
  cascade_assigns_eligible (fun _ => some ⟨8001⟩) (fun _ => .non200 500) 2
    ⟨[⟨"task_1", "A", "d", "developer", 5, [], "not_started", none, none⟩,
      ⟨"task_2", "B", "d", "developer", 5, ["A"], "not_started", none, none⟩],
      fun x => if x = "task_1" then some ⟨"completed", "developer", none, none⟩
               else if x = "task_2" then some ⟨"not_started", "developer", none, none⟩
               else none, []⟩
    1 (by decide) (by decide) (by decide) rfl

/-! ## C5: priority order of emission

The queue sort is an insertion sort; since Python's `list.sort` is stable
and any two stable sorts by the same key agree, the lemmas below describe
exactly the source's sort. -/

theorem insertByKey_mem (tasks : List Task) (x y : String) :
    ∀ l, (y ∈ insertByKey tasks x l) ↔ (y = x ∨ y ∈ l) := by
  intro l
  induction l with
  | nil => simp [insertByKey]
  | cons z l ih =>
    by_cases h : priorityKey tasks z < priorityKey tasks x
    · rw [insertByKey, if_pos h]
      simp only [List.mem_cons, ih]
      tauto
    · rw [insertByKey, if_neg h]
      simp [List.mem_cons]

theorem sortByPriorityKey_mem (tasks : List Task) (y : String) :
    ∀ q, (y ∈ sortByPriorityKey tasks q) ↔ y ∈ q := by
  intro q
  induction q with
  | nil => simp [sortByPriorityKey]
  | cons z q ih =>
    simp only [sortByPriorityKey, insertByKey_mem, ih, List.mem_cons]

theorem insertByKey_perm (tasks : List Task) (x : String) :
    ∀ l, (insertByKey tasks x l).Perm (x :: l) := by
  intro l
  induction l with
  | nil => simp [insertByKey]
  | cons z l ih =>
    by_cases h : priorityKey tasks z < priorityKey tasks x
    · rw [insertByKey, if_pos h]
      exact (ih.cons z).trans (List.Perm.swap x z l)
    · rw [insertByKey, if_neg h]

theorem sortByPriorityKey_perm (tasks : List Task) :
    ∀ q, (sortByPriorityKey tasks q).Perm q := by
  intro q
  induction q with
  | nil => exact List.Perm.refl []
  | cons z q ih =>
    exact (insertByKey_perm tasks z (sortByPriorityKey tasks q)).trans (ih.cons z)

theorem insertByKey_pairwise (tasks : List Task) (x : String) :
    ∀ l, l.Pairwise (fun a b => priorityKey tasks a ≤ priorityKey tasks b) →
      (insertByKey tasks x l).Pairwise
        (fun a b => priorityKey tasks a ≤ priorityKey tasks b) := by
  intro l
  induction l with
  | nil => intro _; simp [insertByKey]
  | cons z l ih =>
    intro hp
    rw [List.pairwise_cons] at hp
    by_cases h : priorityKey tasks z < priorityKey tasks x
    · rw [insertByKey, if_pos h, List.pairwise_cons]
      refine ⟨?_, ih hp.2⟩
      intro y hy
      rcases (insertByKey_mem tasks x y l).1 hy with hxy | hyl
      · exact hxy ▸ le_of_lt h
      · exact hp.1 y hyl
    · rw [insertByKey, if_neg h, List.pairwise_cons]
      refine ⟨?_, List.pairwise_cons.2 hp⟩
      intro y hy
      rcases List.mem_cons.1 hy with hyz | hyl
      · exact hyz ▸ le_of_not_lt h
      · exact le_trans (le_of_not_lt h) (hp.1 y hyl)

theorem sortByPriorityKey_pairwise (tasks : List Task) :
    ∀ q, (sortByPriorityKey tasks q).Pairwise
      (fun a b => priorityKey tasks a ≤ priorityKey tasks b) := by
  intro q
  induction q with
  | nil => simp [sortByPriorityKey]
  | cons z q ih => exact insertByKey_pairwise tasks z _ ih

/-- The head of the sorted queue has minimal key among the queue. -/
theorem sortByPriorityKey_head_min (tasks : List Task) (q : List String)
    (h rest_ : _) (hs : sortByPriorityKey tasks q = h :: rest_) :
    ∀ x ∈ q, priorityKey tasks h ≤ priorityKey tasks x := by
  intro x hx
  have hx2 : x ∈ sortByPriorityKey tasks q := (sortByPriorityKey_mem tasks x q).2 hx
  rw [hs] at hx2
  rcases List.mem_cons.1 hx2 with hxh | hxr
  · exact hxh ▸ le_refl _
  · have hp := sortByPriorityKey_pairwise tasks q
    rw [hs, List.pairwise_cons] at hp
    exact hp.1 x hxr

/-- Decomposition of a stable insertion: `x` lands right after the
elements with strictly smaller key. -/
theorem insertByKey_decomp (tasks : List Task) (x : String) :
    ∀ l, ∃ l1 l2, insertByKey tasks x l = l1 ++ x :: l2 ∧ l = l1 ++ l2 ∧
      ∀ y ∈ l1, priorityKey tasks y < priorityKey tasks x := by
  intro l
  induction l with
  | nil => exact ⟨[], [], rfl, rfl, by simp⟩
  | cons z l ih =>
    by_cases h : priorityKey tasks z < priorityKey tasks x
    · obtain ⟨l1, l2, h1, h2, h3⟩ := ih
      refine ⟨z :: l1, l2, ?_, ?_, ?_⟩
      · rw [insertByKey, if_pos h, h1]
        rfl
      · rw [List.cons_append, h2]
      · intro y hy
        rcases List.mem_cons.1 hy with hyz | hyl
        · exact hyz ▸ h
        · exact h3 y hyl
    · exact ⟨[], z :: l, by rw [insertByKey, if_neg h]; rfl, rfl, by simp⟩

theorem indexOf_append_not_mem {x : String} {l1 l2 : List String} (h : x ∉ l1) :
    (l1 ++ l2).indexOf x = l1.length + l2.indexOf x := by
  induction l1 with
  | nil => simp
  | cons z l1 ih =>
    have hzx : z ≠ x := fun hc => h (hc ▸ List.mem_cons_self z l1)
    rw [List.cons_append, List.indexOf_cons_ne _ hzx,
      ih (fun hc => h (List.mem_cons_of_mem z hc))]
    simp only [List.length_cons]
    omega

/-- Stability of the insertion sort: two elements with equal key keep the
relative order of their first occurrences. -/
theorem sortByPriorityKey_stable (tasks : List Task) (a b : String)
    (hne : a ≠ b) (hpe : priorityKey tasks a = priorityKey tasks b) :
    ∀ q, a ∈ q → q.indexOf a < q.indexOf b →
      (sortByPriorityKey tasks q).indexOf a < (sortByPriorityKey tasks q).indexOf b := by
  intro q
  induction q with
  | nil => simp
  | cons z q ih =>
    intro ha hab
    by_cases hza : z = a
    · subst hza
      obtain ⟨l1, l2, h1, h2, h3⟩ := insertByKey_decomp tasks z (sortByPriorityKey tasks q)
      rw [sortByPriorityKey, h1]
      have hz1 : z ∉ l1 := fun hc => lt_irrefl _ (h3 z hc)
      have hb1 : b ∉ l1 := by
        intro hc
        have := h3 b hc
        rw [← hpe] at this
        exact lt_irrefl _ this
      rw [indexOf_append_not_mem hz1, indexOf_append_not_mem hb1,
        List.indexOf_cons_self, List.indexOf_cons_ne _ hne]
      omega
    · by_cases hzb : z = b
      · subst hzb
        rw [List.indexOf_cons_self] at hab
        omega
      · have ha' : a ∈ q := by
          rcases List.mem_cons.1 ha with hc | hc
          · exact absurd hc.symm hza
          · exact hc
        have hab' : q.indexOf a < q.indexOf b := by
          rw [List.indexOf_cons_ne _ hza, List.indexOf_cons_ne _ hzb] at hab
          omega
        have hih := ih ha' hab'
        obtain ⟨l1, l2, h1, h2, h3⟩ := insertByKey_decomp tasks z (sortByPriorityKey tasks q)
        rw [sortByPriorityKey, h1]
        by_cases hal1 : a ∈ l1
        · rw [List.indexOf_append_of_mem hal1]
          by_cases hbl1 : b ∈ l1
          · rw [List.indexOf_append_of_mem hbl1]
            rw [h2, List.indexOf_append_of_mem hal1, List.indexOf_append_of_mem hbl1] at hih
            exact hih
          · rw [indexOf_append_not_mem hbl1]
            have : l1.indexOf a < l1.length := List.indexOf_lt_length.2 hal1
            omega
        · have hbl1 : b ∉ l1 := by
            intro hc
            rw [h2, indexOf_append_not_mem hal1, List.indexOf_append_of_mem hc] at hih
            have : l1.indexOf b < l1.length := List.indexOf_lt_length.2 hc
            omega
          rw [indexOf_append_not_mem hal1, indexOf_append_not_mem hbl1,
            List.indexOf_cons_ne _ hza, List.indexOf_cons_ne _ hzb]
          rw [h2, indexOf_append_not_mem hal1, indexOf_append_not_mem hbl1] at hih
          omega

/-- The new-ready appends of `process_neighbors` go to the back of the
queue. -/
theorem process_neighbors_queue_suffix :
    ∀ ns (inDeg : String → Int) (queue : List String),
      ∃ app, (process_neighbors inDeg queue ns).2 = queue ++ app := by
  intro ns
  induction ns with
  | nil => intro inDeg queue; exact ⟨[], by simp [process_neighbors]⟩
  | cons n ns ih =>
    intro inDeg queue
    rw [process_neighbors]
    by_cases h : inDeg n - 1 = 0
    · rw [if_pos h]
      obtain ⟨app, happ⟩ := ih _ (queue ++ [n])
      exact ⟨[n] ++ app, by rw [happ, List.append_assoc]⟩
    · rw [if_neg h]
      exact ih _ queue

/-- C5: among titles simultaneously in the ready queue of the topological
loop of `sort_tasks_by_dependencies`, emission follows ascending priority,
and first-insertion order breaks ties: if `a` has strictly smaller
priority than `b`, or equal priority and an earlier position in the
queue, then whenever `b`'s task is emitted at all, `a`'s task is emitted
strictly earlier. -/
theorem topo_emission_order (tasks : List Task) (graph : String → List String) :
    ∀ fuel inDeg queue a b ta tb,
      task_map tasks a = some ta → task_map tasks b = some tb →
      a ∈ queue → b ∈ queue →
      (priorityKey tasks a < priorityKey tasks b ∨
        (priorityKey tasks a = priorityKey tasks b ∧ queue.indexOf a < queue.indexOf b)) →
      tb ∈ topo_loop tasks graph fuel inDeg queue →
      ta ∈ topo_loop tasks graph fuel inDeg queue ∧
        (topo_loop tasks graph fuel inDeg queue).indexOf ta <
          (topo_loop tasks graph fuel inDeg queue).indexOf tb := by
  intro fuel
  induction fuel with
  | zero =>
    intro inDeg queue a b ta tb _ _ _ _ _ htbmem
    simp [topo_loop] at htbmem
  | succ fuel ih =>
    intro inDeg queue a b ta tb hta htb ha hb hcond htbmem
    have hab : a ≠ b := by
      rcases hcond with h | ⟨h, hidx⟩
      · intro hc; rw [hc] at h; exact lt_irrefl _ h
      · intro hc; rw [hc] at hidx; exact lt_irrefl _ hidx
    have htanb : ta ≠ tb := by
      intro hc
      apply hab
      rw [← task_map_title hta, ← task_map_title htb, hc]
    rw [topo_loop] at htbmem ⊢
    cases hs : sortByPriorityKey tasks queue with
    | nil =>
      exfalso
      have hmem := (sortByPriorityKey_mem tasks b queue).2 hb
      rw [hs] at hmem
      simp at hmem
    | cons current rest2 =>
      rw [hs] at htbmem
      dsimp only at htbmem ⊢
      have hcb : current ≠ b := by
        rcases hcond with h | ⟨h, hidx⟩
        · intro hc
          have hmin := sortByPriorityKey_head_min tasks queue current rest2 hs a ha
          rw [hc] at hmin
          have hmin2 := sortByPriorityKey_head_min tasks queue current rest2 hs b hb
          omega
        · intro hc
          subst hc
          have hst := sortByPriorityKey_stable tasks a current hab h queue ha hidx
          rw [hs, List.indexOf_cons_self] at hst
          omega
      obtain ⟨app, happ⟩ := process_neighbors_queue_suffix (graph current) inDeg rest2
      by_cases hca2 : current = a
      · subst hca2
        rw [hta] at htbmem ⊢
        simp only [Option.toList_some, List.singleton_append] at htbmem ⊢
        have htbr : tb ∈ topo_loop tasks graph fuel
            (process_neighbors inDeg rest2 (graph current)).1
            (process_neighbors inDeg rest2 (graph current)).2 := by
          rcases List.mem_cons.1 htbmem with hc | hc
          · exact absurd hc.symm htanb
          · exact hc
        refine ⟨List.mem_cons_self _ _, ?_⟩
        rw [List.indexOf_cons_self, List.indexOf_cons_ne _ htanb]
        omega
      · have haq : a ∈ rest2 := by
          have := (sortByPriorityKey_mem tasks a queue).2 ha
          rw [hs] at this
          rcases List.mem_cons.1 this with hc | hc
          · exact absurd hc.symm hca2
          · exact hc
        have hbq : b ∈ rest2 := by
          have := (sortByPriorityKey_mem tasks b queue).2 hb
          rw [hs] at this
          rcases List.mem_cons.1 this with hc | hc
          · exact absurd hc.symm hcb
          · exact hc
        have ha2 : a ∈ (process_neighbors inDeg rest2 (graph current)).2 := by
          rw [happ]; exact List.mem_append.2 (Or.inl haq)
        have hb2 : b ∈ (process_neighbors inDeg rest2 (graph current)).2 := by
          rw [happ]; exact List.mem_append.2 (Or.inl hbq)
        have hcond2 : priorityKey tasks a < priorityKey tasks b ∨
            (priorityKey tasks a = priorityKey tasks b ∧
              (process_neighbors inDeg rest2 (graph current)).2.indexOf a <
                (process_neighbors inDeg rest2 (graph current)).2.indexOf b) := by
          rcases hcond with h | ⟨h, hidx⟩
          · exact Or.inl h
          · refine Or.inr ⟨h, ?_⟩
            have hst := sortByPriorityKey_stable tasks a b hab h queue ha hidx
            rw [hs, List.indexOf_cons_ne _ hca2, List.indexOf_cons_ne _ hcb] at hst
            rw [happ, List.indexOf_append_of_mem haq, List.indexOf_append_of_mem hbq]
            omega
        cases htm : task_map tasks current with
        | none =>
          rw [htm] at htbmem
          simp only [Option.toList_none, List.nil_append] at htbmem ⊢
          exact ih _ _ a b ta tb hta htb ha2 hb2 hcond2 htbmem
        | some tcur =>
          rw [htm] at htbmem
          simp only [Option.toList_some, List.singleton_append] at htbmem ⊢
          have htcb : tcur ≠ tb := by
            intro hc
            apply hcb
            rw [← task_map_title htm, ← task_map_title htb, hc]
          have htca : tcur ≠ ta := by
            intro hc
            apply hca2
            rw [← task_map_title htm, ← task_map_title hta, hc]
          have htbr : tb ∈ topo_loop tasks graph fuel
              (process_neighbors inDeg rest2 (graph current)).1
              (process_neighbors inDeg rest2 (graph current)).2 := by
            rcases List.mem_cons.1 htbmem with hc | hc
            · exact absurd hc.symm htcb
            · exact hc
          obtain ⟨hmem2, hidx2⟩ := ih _ _ a b ta tb hta htb ha2 hb2 hcond2 htbr
          refine ⟨List.mem_cons_of_mem _ hmem2, ?_⟩
          rw [List.indexOf_cons_ne _ htca, List.indexOf_cons_ne _ htcb]
          omega

/-- Witness for C5 at spec Scenario B: ready set `{X(priority 5),
Y(priority 1)}` with no dependencies; `Y` is emitted before `X`. -/
theorem topo_emission_order_witness :
    (⟨"task_2", "Y", "d", "developer", 1, [], "not_started", none, none⟩ : Task) ∈
      sort_tasks_by_dependencies
        [⟨"task_1", "X", "d", "developer", 5, [], "not_started", none, none⟩,
         ⟨"task_2", "Y", "d", "developer", 1, [], "not_started", none, none⟩] ∧
    (sort_tasks_by_dependencies
        [⟨"task_1", "X", "d", "developer", 5, [], "not_started", none, none⟩,
         ⟨"task_2", "Y", "d", "developer", 1, [], "not_started", none, none⟩]).indexOf
      ⟨"task_2", "Y", "d", "developer", 1, [], "not_started", none, none⟩ <
    (sort_tasks_by_dependencies
        [⟨"task_1", "X", "d", "developer", 5, [], "not_started", none, none⟩,
         ⟨"task_2", "Y", "d", "developer", 1, [], "not_started", none, none⟩]).indexOf
      ⟨"task_1", "X", "d", "developer", 5, [], "not_started", none, none⟩ :=
  topo_emission_order
    [⟨"task_1", "X", "d", "developer", 5, [], "not_started", none, none⟩,
     ⟨"task_2", "Y", "d", "developer", 1, [], "not_started", none, none⟩]
    (graph_build
      [⟨"task_1", "X", "d", "developer", 5, [], "not_started", none, none⟩,
       ⟨"task_2", "Y", "d", "developer", 1, [], "not_started", none, none⟩])
    3
    (in_degree_build
      [⟨"task_1", "X", "d", "developer", 5, [], "not_started", none, none⟩,
       ⟨"task_2", "Y", "d", "developer", 1, [], "not_started", none, none⟩])
    (seedQueue
      [⟨"task_1", "X", "d", "developer", 5, [], "not_started", none, none⟩,
       ⟨"task_2", "Y", "d", "developer", 1, [], "not_started", none, none⟩])
    "Y" "X"
    ⟨"task_2", "Y", "d", "developer", 1, [], "not_started", none, none⟩
    ⟨"task_1", "X", "d", "developer", 5, [], "not_started", none, none⟩
    (by decide) (by decide) (by decide) (by decide) (Or.inl (by decide)) (by decide)


/-! ## C2: the emitted order respects dependencies -/

theorem resolvable_iff_task_map (tasks : List Task) (d : String) :
    resolvable tasks d = true ↔ ∃ t, task_map tasks d = some t := by
  unfold resolvable task_map
  rw [List.any_eq_true]
  constructor
  · rintro ⟨t, ht, hp⟩
    have hex : ∃ u ∈ tasks.reverse, (fun u : Task => u.title == d) u = true :=
      ⟨t, List.mem_reverse.2 ht, hp⟩
    have h2 := List.find?_isSome.2 hex
    exact Option.isSome_iff_exists.1 h2
  · rintro ⟨t, ht⟩
    refine ⟨t, List.mem_reverse.1 (List.mem_of_find?_eq_some ht), ?_⟩
    have hp := List.find?_some ht
    simpa using hp

theorem task_map_mem {tasks : List Task} {x : String} {t : Task}
    (h : task_map tasks x = some t) : t ∈ tasks := by
  unfold task_map at h
  exact List.mem_reverse.1 (List.mem_of_find?_eq_some h)

/-- With graph-unique titles, any member carrying the looked-up title is
the `task_map` image. -/
theorem task_map_unique {tasks : List Task} (hN : (tasks.map Task.title).Nodup)
    {x : String} {t t' : Task} (h : task_map tasks x = some t)
    (ht' : t' ∈ tasks) (htt : t'.title = x) : t' = t := by
  have h1 : t ∈ tasks := task_map_mem h
  have h2 : t.title = x := task_map_title h
  exact List.inj_on_of_nodup_map hN ht' h1 (by rw [htt, h2])

theorem firstDedupAux_sub {x : String} :
    ∀ (l seen : List String), x ∈ firstDedupAux seen l → x ∈ l := by
  intro l
  induction l with
  | nil => intro seen h; simpa [firstDedupAux] using h
  | cons z l ih =>
    intro seen h
    rw [firstDedupAux] at h
    by_cases hc : seen.contains z
    · rw [if_pos hc] at h
      exact List.mem_cons_of_mem z (ih seen h)
    · rw [if_neg hc] at h
      rcases List.mem_cons.1 h with hz | hz
      · exact hz ▸ List.mem_cons_self z l
      · exact List.mem_cons_of_mem z (ih (z :: seen) hz)

theorem firstDedupAux_nodup :
    ∀ (l seen : List String), (firstDedupAux seen l).Nodup ∧
      ∀ x ∈ firstDedupAux seen l, x ∉ seen := by
  intro l
  induction l with
  | nil => intro seen; simp [firstDedupAux]
  | cons z l ih =>
    intro seen
    rw [firstDedupAux]
    by_cases hc : seen.contains z
    · rw [if_pos hc]
      exact ih seen
    · rw [if_neg hc]
      obtain ⟨hnd, hns⟩ := ih (z :: seen)
      refine ⟨List.nodup_cons.2 ⟨?_, hnd⟩, ?_⟩
      · intro hz
        exact hns z hz (List.mem_cons_self z seen)
      · intro x hx
        rcases List.mem_cons.1 hx with hh | hh
        · subst hh
          intro hmem
          exact hc (by simpa using hmem)
        · intro hmem
          exact hns x hh (List.mem_cons_of_mem z hmem)

theorem titleKeys_nodup (tasks : List Task) : (titleKeys tasks).Nodup :=
  (firstDedupAux_nodup (tasks.map Task.title) []).1

theorem titleKeys_resolvable (tasks : List Task) {x : String} (h : x ∈ titleKeys tasks) :
    resolvable tasks x = true := by
  have hx : x ∈ tasks.map Task.title := firstDedupAux_sub (tasks.map Task.title) [] h
  obtain ⟨t, ht, htt⟩ := List.mem_map.1 hx
  unfold resolvable
  rw [List.any_eq_true]
  exact ⟨t, ht, by simp [htt]⟩

/-- With graph-unique titles, filtering on a resolved title yields exactly
the resolved task. -/
theorem filter_title_nodup {tasks : List Task} (hN : (tasks.map Task.title).Nodup)
    {x : String} {tx : Task} (hx : task_map tasks x = some tx) :
    tasks.filter (fun t => t.title == x) = [tx] := by
  have hmem : tx ∈ tasks := task_map_mem hx
  have htt : tx.title = x := task_map_title hx
  have hall : ∀ t ∈ tasks.filter (fun t => t.title == x), t = tx := by
    intro t ht
    obtain ⟨ht1, ht2⟩ := List.mem_filter.1 ht
    exact task_map_unique hN hx ht1 (by simpa using ht2)
  have hmf : tx ∈ tasks.filter (fun t => t.title == x) :=
    List.mem_filter.2 ⟨hmem, by simp [htt]⟩
  have hndt : tasks.Nodup := hN.of_map
  have hndf : (tasks.filter (fun t => t.title == x)).Nodup :=
    hndt.filter _
  cases hf : tasks.filter (fun t => t.title == x) with
  | nil => rw [hf] at hmf; simp at hmf
  | cons u us =>
    have hu : u = tx := hall u (by rw [hf]; exact List.mem_cons_self u us)
    have hus : us = [] := by
      cases hus : us with
      | nil => rfl
      | cons v vs =>
        exfalso
        have hv : v = tx := hall v (by rw [hf, hus]; simp)
        rw [hf, hus] at hndf
        rw [List.nodup_cons] at hndf
        exact hndf.1 (by rw [hu, ← hv]; simp)
    rw [hu, hus]

/-- Closed form of the inner dependency loop of the `in_degree` build. -/
theorem deps_fold_deg (tasks : List Task) (t : Task) :
    ∀ (deps : List String) (g : String → Int) (x : String),
      (deps.foldl (fun g2 dep => if resolvable tasks dep then
        (fun y => if y = t.title then g2 y + 1 else g2 y) else g2) g) x =
      g x + (if x = t.title then ((deps.filter (resolvable tasks)).length : Int) else 0) := by
  intro deps
  induction deps with
  | nil => intro g x; simp
  | cons d deps ih =>
    intro g x
    rw [List.foldl_cons]
    by_cases hr : resolvable tasks d = true
    · rw [if_pos hr, ih]
      by_cases hx : x = t.title
      · simp only [if_pos hx, List.filter_cons, hr, if_true, List.length_cons]
        push_cast
        omega
      · simp only [if_neg hx]
    · rw [if_neg hr, ih]
      have hfc : (d :: deps).filter (resolvable tasks) = deps.filter (resolvable tasks) := by
        simp [List.filter_cons, hr]
      rw [hfc]

/-- Closed form of the `in_degree` build: total over every task carrying
the key's title. -/
theorem in_degree_build_eq (tasks : List Task) (x : String) :
    in_degree_build tasks x =
      ((((tasks.filter (fun t => t.title == x)).map
        (fun t => (t.dependencies.filter (resolvable tasks)).length)).sum : Nat) : Int) := by
  have go : ∀ (l : List Task) (g : String → Int),
      (l.foldl (fun f t => t.dependencies.foldl
        (fun g2 dep => if resolvable tasks dep then
          (fun y => if y = t.title then g2 y + 1 else g2 y) else g2) f) g) x =
      g x + ((((l.filter (fun t => t.title == x)).map
        (fun t => (t.dependencies.filter (resolvable tasks)).length)).sum : Nat) : Int) := by
    intro l
    induction l with
    | nil => intro g; simp
    | cons t l ih =>
      intro g
      rw [List.foldl_cons, ih, deps_fold_deg]
      by_cases ht : t.title = x
      · have hx : x = t.title := ht.symm
        have hb : (t.title == x) = true := by simp [ht]
        simp only [if_pos hx, List.filter_cons, hb, if_true, List.map_cons, List.sum_cons]
        push_cast
        omega
      · have hx : ¬x = t.title := fun hc => ht hc.symm
        have hb : (t.title == x) = false := by simp [ht]
        simp only [if_neg hx, List.filter_cons, hb, if_false, Bool.false_eq_true]
        omega
  unfold in_degree_build
  rw [go tasks (fun _ => 0)]
  simp

theorem map_const_replicate {β : Type} (c : String) :
    ∀ l : List β, l.map (fun _ => c) = List.replicate l.length c := by
  intro l
  induction l with
  | nil => rfl
  | cons b l ih => simp [List.replicate_succ, ih]

/-- Closed form of the inner dependency loop of the `graph` build. -/
theorem deps_fold_graph (tasks : List Task) (t : Task) :
    ∀ (deps : List String) (g : String → List String) (d : String),
      (deps.foldl (fun g2 dep =>
        if resolvable tasks dep then pushKey g2 dep t.title else g2) g) d =
      g d ++ (deps.filter (fun dep => resolvable tasks dep && dep == d)).map
        (fun _ => t.title) := by
  intro deps
  induction deps with
  | nil => intro g d; simp
  | cons dp deps ih =>
    intro g d
    rw [List.foldl_cons]
    by_cases hr : resolvable tasks dp = true
    · rw [if_pos hr, ih]
      by_cases hd : dp = d
      · subst hd
        have h1 : pushKey g dp t.title dp = g dp ++ [t.title] := by
          simp [pushKey]
        have h2 : (dp :: deps).filter (fun dep => resolvable tasks dep && dep == dp) =
            dp :: deps.filter (fun dep => resolvable tasks dep && dep == dp) := by
          simp [List.filter_cons, hr]
        rw [h1, h2]
        simp
      · have h1 : pushKey g dp t.title d = g d := by
          unfold pushKey
          rw [if_neg (fun hc => hd hc.symm)]
        have hb : (dp == d) = false := by simp [hd]
        have h2 : (dp :: deps).filter (fun dep => resolvable tasks dep && dep == d) =
            deps.filter (fun dep => resolvable tasks dep && dep == d) := by
          simp [List.filter_cons, hb]
        rw [h1, h2]
    · rw [if_neg hr, ih]
      have h2 : (dp :: deps).filter (fun dep => resolvable tasks dep && dep == d) =
          deps.filter (fun dep => resolvable tasks dep && dep == d) := by
        simp [List.filter_cons, hr]
      rw [h2]

/-- Closed form of the `graph` build. -/
theorem graph_build_eq (tasks : List Task) (d : String) :
    graph_build tasks d = tasks.flatMap (fun t =>
      (t.dependencies.filter (fun dep => resolvable tasks dep && dep == d)).map
        (fun _ => t.title)) := by
  have go : ∀ (l : List Task) (g : String → List String),
      (l.foldl (fun f t => t.dependencies.foldl
        (fun g2 dep => if resolvable tasks dep then pushKey g2 dep t.title else g2) f) g) d =
      g d ++ l.flatMap (fun t =>
        (t.dependencies.filter (fun dep => resolvable tasks dep && dep == d)).map
          (fun _ => t.title)) := by
    intro l
    induction l with
    | nil => intro g; simp
    | cons t l ih =>
      intro g
      rw [List.foldl_cons, ih, deps_fold_graph, List.flatMap_cons, List.append_assoc]
  unfold graph_build
  rw [go tasks (fun _ => [])]
  simp

/-- Members of a `graph` adjacency list are titles of tasks in the set. -/
theorem graph_mem {tasks : List Task} {d x : String}
    (h : x ∈ graph_build tasks d) : resolvable tasks x = true := by
  rw [graph_build_eq] at h
  obtain ⟨t, ht, hx⟩ := List.mem_flatMap.1 h
  obtain ⟨_, _, hxt⟩ := List.mem_map.1 hx
  unfold resolvable
  rw [List.any_eq_true]
  exact ⟨t, ht, by simp [hxt]⟩

/-- With graph-unique titles, the multiplicity of `x` in `graph[d]` is the
number of `d`-occurrences among the resolvable dependencies of the task
titled `x`. -/
theorem graph_count {tasks : List Task} (hN : (tasks.map Task.title).Nodup)
    {x : String} {tx : Task} (hx : task_map tasks x = some tx) (d : String) :
    (graph_build tasks d).count x =
      (tx.dependencies.filter (fun dep => resolvable tasks dep && dep == d)).length := by
  rw [graph_build_eq]
  have aux : ∀ (l : List Task),
      (l.flatMap (fun t =>
        (t.dependencies.filter (fun dep => resolvable tasks dep && dep == d)).map
          (fun _ => t.title))).count x =
      ((l.filter (fun t => t.title == x)).map
        (fun t => (t.dependencies.filter
          (fun dep => resolvable tasks dep && dep == d)).length)).sum := by
    intro l
    induction l with
    | nil => rfl
    | cons t l ih =>
      rw [List.flatMap_cons, List.count_append, ih, map_const_replicate,
        List.count_replicate]
      by_cases ht : t.title = x
      · have hb : (t.title == x) = true := by simp [ht]
        have hb2 : (x == t.title) = true := by simp [ht]
        simp only [List.filter_cons, hb, if_true, List.map_cons, List.sum_cons, hb2]
      · have hb : (t.title == x) = false := by simp [ht]
        have hb2 : (x == t.title) = false := by
          rw [beq_eq_false_iff_ne]
          exact fun hc => ht hc.symm
        simp only [List.filter_cons, hb, if_false, hb2, Bool.false_eq_true]
        omega
  rw [aux, filter_title_nodup hN hx]
  simp

/-- `process_neighbors` decrements each key once per occurrence in the
neighbour list. -/
theorem process_neighbors_inDeg :
    ∀ (ns : List String) (inDeg : String → Int) (queue : List String) (x : String),
      (process_neighbors inDeg queue ns).1 x = inDeg x - (ns.count x : Int) := by
  intro ns
  induction ns with
  | nil => intro inDeg queue x; simp [process_neighbors]
  | cons n ns ih =>
    intro inDeg queue x
    rw [process_neighbors]
    by_cases h : inDeg n - 1 = 0
    · rw [if_pos h, ih]
      by_cases hx : x = n
      · subst hx
        simp only [if_pos rfl, List.count_cons_self]
        push_cast
        omega
      · rw [if_neg hx, List.count_cons_of_ne (fun hc => hx (by simpa using hc))]
    · rw [if_neg h, ih]
      by_cases hx : x = n
      · subst hx
        simp only [if_pos rfl, List.count_cons_self]
        push_cast
        omega
      · rw [if_neg hx, List.count_cons_of_ne (fun hc => hx (by simpa using hc))]

/-- Elements appended by `process_neighbors` are neighbours whose
in-degree was positive and no larger than their multiplicity in the
neighbour list; each is appended at most once. -/
theorem process_neighbors_app :
    ∀ (ns : List String) (inDeg : String → Int) (queue : List String),
      ∃ app, (process_neighbors inDeg queue ns).2 = queue ++ app ∧ app.Nodup ∧
        ∀ x ∈ app, x ∈ ns ∧ 1 ≤ inDeg x ∧ inDeg x ≤ (ns.count x : Int) := by
  intro ns
  induction ns with
  | nil =>
    intro inDeg queue
    exact ⟨[], by simp [process_neighbors], by simp, by simp⟩
  | cons n ns ih =>
    intro inDeg queue
    rw [process_neighbors]
    by_cases h : inDeg n - 1 = 0
    · rw [if_pos h]
      obtain ⟨app, h1, h2, h3⟩ :=
        ih (fun x => if x = n then inDeg n - 1 else inDeg x) (queue ++ [n])
      refine ⟨n :: app, by rw [h1, List.append_assoc]; rfl, ?_, ?_⟩
      · rw [List.nodup_cons]
        refine ⟨?_, h2⟩
        intro hn
        have := (h3 n hn).2.1
        simp at this
        omega
      · intro x hx
        rcases List.mem_cons.1 hx with hx | hx
        · subst hx
          refine ⟨List.mem_cons_self _ _, by omega, ?_⟩
          rw [List.count_cons_self]
          push_cast
          omega
        · obtain ⟨hm, hge, hle⟩ := h3 x hx
          have hxn : x ≠ n := by
            intro hc
            subst hc
            simp at hge
            omega
          rw [if_neg hxn] at hge hle
          refine ⟨List.mem_cons_of_mem _ hm, hge, ?_⟩
          calc inDeg x ≤ (ns.count x : Int) := hle
            _ ≤ ((n :: ns).count x : Int) := by
                rw [List.count_cons_of_ne (fun hc => hxn (by simpa using hc))]
    · rw [if_neg h]
      obtain ⟨app, h1, h2, h3⟩ :=
        ih (fun x => if x = n then inDeg n - 1 else inDeg x) queue
      refine ⟨app, h1, h2, ?_⟩
      intro x hx
      obtain ⟨hm, hge, hle⟩ := h3 x hx
      by_cases hxn : x = n
      · subst hxn
        simp at hge hle
        refine ⟨List.mem_cons_self _ _, by omega, ?_⟩
        rw [List.count_cons_self]
        push_cast
        omega
      · rw [if_neg hxn] at hge hle
        refine ⟨List.mem_cons_of_mem _ hm, hge, ?_⟩
        calc inDeg x ≤ (ns.count x : Int) := hle
          _ ≤ ((n :: ns).count x : Int) := by
              rw [List.count_cons_of_ne (fun hc => hxn (by simpa using hc))]

/-- Splitting a filter along an exclusive pointwise disjunction of
predicates. -/
theorem filter_length_split {α : Type} (p p1 p2 : α → Bool)
    (h : ∀ a, p a = (p1 a || p2 a) ∧ ¬(p1 a = true ∧ p2 a = true)) :
    ∀ l : List α, (l.filter p).length = (l.filter p1).length + (l.filter p2).length := by
  intro l
  induction l with
  | nil => rfl
  | cons x l ih =>
    obtain ⟨he, hx⟩ := h x
    simp only [List.filter_cons]
    cases h1 : p1 x with
    | true =>
      have h2 : p2 x = false := by
        cases h2 : p2 x
        · rfl
        · exact absurd ⟨h1, h2⟩ hx
      have hp : p x = true := by rw [he, h1, h2]; rfl
      simp only [hp, h1, h2, if_true, Bool.false_eq_true, if_false, List.length_cons]
      omega
    | false =>
      cases h2 : p2 x with
      | true =>
        have hp : p x = true := by rw [he, h1, h2]; rfl
        simp only [hp, h1, h2, if_true, Bool.false_eq_true, if_false, List.length_cons]
        omega
      | false =>
        have hp : p x = false := by rw [he, h1, h2]; rfl
        simp only [hp, h1, h2, Bool.false_eq_true, if_false]
        exact ih

/-- Index extraction from a `take` prefix. -/
theorem mem_take_get {α : Type} :
    ∀ (l : List α) (j : Nat) (u : α), u ∈ l.take j →
      ∃ i, ∃ hi : i < l.length, i < j ∧ l.get ⟨i, hi⟩ = u := by
  intro l
  induction l with
  | nil => intro j u h; simp at h
  | cons a l ih =>
    intro j u h
    cases j with
    | zero => simp at h
    | succ j =>
      rw [List.take_succ_cons] at h
      rcases List.mem_cons.1 h with h | h
      · exact ⟨0, Nat.succ_pos _, Nat.succ_pos _, h.symm⟩
      · obtain ⟨i, hi, hij, hg⟩ := ih j u h
        exact ⟨i + 1, Nat.succ_lt_succ hi, Nat.succ_lt_succ hij, hg⟩

/-- The loop invariant of Kahn's algorithm as implemented: `done` is the
list of popped titles; the in-degree of each title counts its resolvable
dependencies whose title is not yet done; every queued or done title has
all resolvable dependencies done (for queued ones, before it is popped);
queue entries are distinct titles not yet done. -/
def KahnInv (tasks : List Task) (done : List String) (inDeg : String → Int)
    (queue : List String) : Prop :=
  (∀ x tx, task_map tasks x = some tx →
    inDeg x = (((tx.dependencies.filter
      (fun d => resolvable tasks d && !(decide (d ∈ done)))).length : Nat) : Int)) ∧
  (∀ x ∈ queue, ∀ tx, task_map tasks x = some tx →
    ∀ d ∈ tx.dependencies, resolvable tasks d = true → d ∈ done) ∧
  (∀ x ∈ queue, resolvable tasks x = true) ∧
  (queue.Nodup ∧ ∀ x ∈ queue, x ∉ done) ∧
  (∀ x ∈ done, ∀ tx, task_map tasks x = some tx →
    ∀ d ∈ tx.dependencies, resolvable tasks d = true → d ∈ done)

/-- Popping the head of the sorted queue and processing its neighbours
preserves the invariant, with the popped title appended to `done`. -/
theorem kahn_inv_step (tasks : List Task) (hN : (tasks.map Task.title).Nodup)
    {inDeg : String → Int} {queue done : List String} {current : String}
    {rest2 : List String}
    (hInv : KahnInv tasks done inDeg queue)
    (hs : sortByPriorityKey tasks queue = current :: rest2) :
    KahnInv tasks (done ++ [current])
      (process_neighbors inDeg rest2 (graph_build tasks current)).1
      (process_neighbors inDeg rest2 (graph_build tasks current)).2 := by
  obtain ⟨hI1, hI2, hI3, ⟨hQnd, hQdj⟩, hI6⟩ := hInv
  have hcq : current ∈ queue := by
    rw [← sortByPriorityKey_mem tasks current queue, hs]
    exact List.mem_cons_self _ _
  have hcd : current ∉ done := hQdj current hcq
  have hsnd : (current :: rest2).Nodup := by
    rw [← hs]
    exact (sortByPriorityKey_perm tasks queue).symm.nodup hQnd
  have hcr : current ∉ rest2 := (List.nodup_cons.1 hsnd).1
  have hrnd : rest2.Nodup := (List.nodup_cons.1 hsnd).2
  have hrsub : ∀ x ∈ rest2, x ∈ queue := by
    intro x hx
    rw [← sortByPriorityKey_mem tasks x queue, hs]
    exact List.mem_cons_of_mem _ hx
  obtain ⟨app, hQ2, hAnd, hAprop⟩ :=
    process_neighbors_app (graph_build tasks current) inDeg rest2
  have hsplit : ∀ tx : Task,
      (tx.dependencies.filter
        (fun d => resolvable tasks d && !(decide (d ∈ done)))).length =
      (tx.dependencies.filter
        (fun d => resolvable tasks d && !(decide (d ∈ done ++ [current])))).length +
      (tx.dependencies.filter
        (fun d => resolvable tasks d && (d == current))).length := by
    intro tx
    refine filter_length_split _ _ _ ?_ tx.dependencies
    intro a
    by_cases hra : resolvable tasks a = true
    · by_cases hac : a = current
      · subst hac
        have h1 : (a ∈ done ++ [a]) := List.mem_append.2 (Or.inr (List.mem_cons_self _ _))
        constructor
        · simp [hra, hcd, h1]
        · simp [h1]
      · have h1 : (a ∈ done ++ [current]) ↔ a ∈ done := by
          rw [List.mem_append]
          constructor
          · rintro (h | h)
            · exact h
            · simp at h; exact absurd h hac
          · exact Or.inl
        constructor
        · by_cases had : a ∈ done <;> simp [hra, had, hac, h1]
        · by_cases had : a ∈ done <;> simp [hra, had, hac, h1]
    · have hra2 : resolvable tasks a = false := by
        cases hh : resolvable tasks a
        · rfl
        · exact absurd hh hra
      constructor
      · simp [hra2]
      · simp [hra2]
  have appElem : ∀ x ∈ app, resolvable tasks x = true ∧
      ∃ tx, task_map tasks x = some tx ∧
        (∀ d ∈ tx.dependencies, resolvable tasks d = true → d ∈ done ++ [current]) ∧
        (∃ d0 ∈ tx.dependencies, resolvable tasks d0 = true ∧ d0 ∉ done) ∧
        x ∉ done ∧ x ≠ current := by
    intro x hx
    obtain ⟨hxns, hge, hle⟩ := hAprop x hx
    have hxres : resolvable tasks x = true := graph_mem hxns
    obtain ⟨tx, htx⟩ := (resolvable_iff_task_map tasks x).1 hxres
    have hdeg := hI1 x tx htx
    have hcnt := graph_count hN htx current
    have hsp := hsplit tx
    have hlenP1 : (tx.dependencies.filter
        (fun d => resolvable tasks d && !(decide (d ∈ done ++ [current])))).length = 0 := by
      rw [hdeg] at hle
      rw [← hcnt] at hsp
      omega
    have hall : ∀ d ∈ tx.dependencies, resolvable tasks d = true → d ∈ done ++ [current] := by
      intro d hd hrd
      by_contra hnd
      have : (fun d => resolvable tasks d && !(decide (d ∈ done ++ [current]))) d = true := by
        simp [hrd, hnd]
      have hmem : d ∈ tx.dependencies.filter
          (fun d => resolvable tasks d && !(decide (d ∈ done ++ [current]))) :=
        List.mem_filter.2 ⟨hd, this⟩
      rw [List.length_eq_zero] at hlenP1
      rw [hlenP1] at hmem
      simp at hmem
    have hex : ∃ d0 ∈ tx.dependencies, resolvable tasks d0 = true ∧ d0 ∉ done := by
      have hpos : 0 < (tx.dependencies.filter
          (fun d => resolvable tasks d && !(decide (d ∈ done)))).length := by
        rw [hdeg] at hge
        omega
      rw [List.length_pos] at hpos
      obtain ⟨d0, hd0⟩ := List.exists_mem_of_ne_nil _ hpos
      obtain ⟨hd1, hd2⟩ := List.mem_filter.1 hd0
      rw [Bool.and_eq_true] at hd2
      refine ⟨d0, hd1, hd2.1, ?_⟩
      have := hd2.2
      simp at this
      exact this
    obtain ⟨d0, hd01, hd02, hd03⟩ := hex
    have hxdone : x ∉ done := by
      intro hc
      exact hd03 (hI6 x hc tx htx d0 hd01 hd02)
    have hxcur : x ≠ current := by
      intro hc
      subst hc
      exact hd03 (hI2 x hcq tx htx d0 hd01 hd02)
    exact ⟨hxres, tx, htx, hall, ⟨d0, hd01, hd02, hd03⟩, hxdone, hxcur⟩
  refine ⟨?_, ?_, ?_, ⟨?_, ?_⟩, ?_⟩
  · intro x tx htx
    rw [process_neighbors_inDeg, hI1 x tx htx, graph_count hN htx current, hsplit tx]
    push_cast
    omega
  · intro x hx tx htx d hd hrd
    rw [hQ2] at hx
    rcases List.mem_append.1 hx with hx | hx
    · exact List.mem_append.2 (Or.inl (hI2 x (hrsub x hx) tx htx d hd hrd))
    · obtain ⟨_, tx2, htx2, hall, _, _, _⟩ := appElem x hx
      rw [htx2] at htx
      cases htx
      exact hall d hd hrd
  · intro x hx
    rw [hQ2] at hx
    rcases List.mem_append.1 hx with hx | hx
    · exact hI3 x (hrsub x hx)
    · exact (appElem x hx).1
  · rw [hQ2]
    refine hrnd.append hAnd ?_
    intro x hx1 hx2
    obtain ⟨_, tx, htx, _, ⟨d0, hd01, hd02, hd03⟩, _, _⟩ := appElem x hx2
    exact hd03 (hI2 x (hrsub x hx1) tx htx d0 hd01 hd02)
  · intro x hx
    rw [hQ2] at hx
    rw [List.mem_append]
    rcases List.mem_append.1 hx with hx | hx
    · rintro (hc | hc)
      · exact hQdj x (hrsub x hx) hc
      · simp at hc
        subst hc
        exact hcr hx
    · obtain ⟨_, _, _, _, _, hxd, hxc⟩ := appElem x hx
      rintro (hc | hc)
      · exact hxd hc
      · simp at hc
        exact hxc hc
  · intro x hx tx htx d hd hrd
    rcases List.mem_append.1 hx with hx | hx
    · exact List.mem_append.2 (Or.inl (hI6 x hx tx htx d hd hrd))
    · simp at hx
      subst hx
      have htx2 : tx ∈ tasks := task_map_mem htx
      exact List.mem_append.2 (Or.inl (hI2 x hcq tx htx d hd hrd))

/-- The invariant holds at the start of the loop: empty done list,
built in-degrees, zero-in-degree seed queue. -/
theorem kahn_inv_init (tasks : List Task) (hN : (tasks.map Task.title).Nodup) :
    KahnInv tasks [] (in_degree_build tasks) (seedQueue tasks) := by
  refine ⟨?_, ?_, ?_, ⟨?_, ?_⟩, ?_⟩
  · intro x tx htx
    have hfe : tx.dependencies.filter
        (fun d => resolvable tasks d && !(decide (d ∈ ([] : List String)))) =
        tx.dependencies.filter (resolvable tasks) := by
      refine List.filter_congr ?_
      intro a _
      simp
    rw [in_degree_build_eq, filter_title_nodup hN htx, hfe]
    simp
  · intro x hx tx htx d hd hrd
    exfalso
    obtain ⟨hx1, hx2⟩ := List.mem_filter.1 hx
    have hz : in_degree_build tasks x = 0 := by simpa using hx2
    rw [in_degree_build_eq, filter_title_nodup hN htx] at hz
    simp only [List.map_cons, List.map_nil, List.sum_cons, List.sum_nil,
      Nat.add_zero, Int.natCast_eq_zero] at hz
    have hmem : d ∈ tx.dependencies.filter (resolvable tasks) :=
      List.mem_filter.2 ⟨hd, hrd⟩
    rw [List.length_eq_zero] at hz
    rw [hz] at hmem
    simp at hmem
  · intro x hx
    exact titleKeys_resolvable tasks (List.mem_filter.1 hx).1
  · exact (titleKeys_nodup tasks).filter _
  · intro x _ hc
    simp at hc
  · intro x hx
    simp at hx

/-- Every dependency of the `j`-th emitted task that resolves in the set
lies in `done` or among the titles emitted before position `j`. -/
theorem kahn_inv_out (tasks : List Task) (hN : (tasks.map Task.title).Nodup) :
    ∀ (fuel : Nat) (inDeg : String → Int) (queue done : List String),
      KahnInv tasks done inDeg queue →
      ∀ (j : Nat) (tj : Task),
        (topo_loop tasks (graph_build tasks) fuel inDeg queue).get? j = some tj →
        ∀ dep ∈ tj.dependencies, resolvable tasks dep = true →
        dep ∈ done ++
          (((topo_loop tasks (graph_build tasks) fuel inDeg queue).take j).map Task.title) := by
  intro fuel
  induction fuel with
  | zero =>
    intro inDeg queue done hInv j tj hget
    simp [topo_loop] at hget
  | succ fuel ih =>
    intro inDeg queue done hInv j tj hget dep hdep hres
    obtain ⟨hI1, hI2, hI3, ⟨hQnd, hQdj⟩, hI6⟩ := hInv
    rcases hs : sortByPriorityKey tasks queue with _ | ⟨current, rest2⟩
    · have hnil : topo_loop tasks (graph_build tasks) (fuel + 1) inDeg queue = [] := by
        rw [topo_loop, hs]
      rw [hnil] at hget
      simp at hget
    · have hcq : current ∈ queue := by
        rw [← sortByPriorityKey_mem tasks current queue, hs]
        exact List.mem_cons_self _ _
      have hcres : resolvable tasks current = true := hI3 current hcq
      obtain ⟨tcur, htcur⟩ := (resolvable_iff_task_map tasks current).1 hcres
      have hout : topo_loop tasks (graph_build tasks) (fuel + 1) inDeg queue =
          tcur :: topo_loop tasks (graph_build tasks) fuel
            (process_neighbors inDeg rest2 (graph_build tasks current)).1
            (process_neighbors inDeg rest2 (graph_build tasks current)).2 := by
        rw [topo_loop, hs]
        show (task_map tasks current).toList ++ _ = _
        rw [htcur]
        simp
      rw [hout] at hget ⊢
      have hInv2 := kahn_inv_step tasks hN ⟨hI1, hI2, hI3, ⟨hQnd, hQdj⟩, hI6⟩ hs
      cases j with
      | zero =>
        have htj : tj = tcur := by
          simp only [List.get?_cons_zero, Option.some.injEq] at hget
          exact hget.symm
        have hdep2 : dep ∈ tcur.dependencies := htj ▸ hdep
        have := hI2 current hcq tcur htcur dep hdep2 hres
        simpa using this
      | succ j =>
        rw [List.get?_cons_succ] at hget
        have hrec := ih _ _ (done ++ [current]) hInv2 j tj hget dep hdep hres
        rw [List.take_succ_cons, List.map_cons, task_map_title htcur]
        simp only [List.mem_append, List.mem_cons, List.mem_singleton] at hrec ⊢
        tauto

/-- C2: the output of `sort_tasks_by_dependencies` respects dependencies —
whenever the task at output position `j` has a dependency title that
resolves to a task `t'` of the set (titles unambiguous), `t'` occupies an
output position strictly below `j`. -/
theorem sort_topological_order (tasks : List Task)
    (hN : (tasks.map Task.title).Nodup)
    (j : Nat) (tj : Task)
    (hget : (sort_tasks_by_dependencies tasks).get? j = some tj)
    (dep : String) (hdep : dep ∈ tj.dependencies)
    (t' : Task) (ht' : t' ∈ tasks) (htt : t'.title = dep) :
    ∃ i, i < j ∧ (sort_tasks_by_dependencies tasks).get? i = some t' := by
  unfold sort_tasks_by_dependencies at hget ⊢
  have hres : resolvable tasks dep = true := by
    unfold resolvable
    rw [List.any_eq_true]
    exact ⟨t', ht', by simp [htt]⟩
  have h := kahn_inv_out tasks hN (tasks.length + 1) (in_degree_build tasks)
    (seedQueue tasks) [] (kahn_inv_init tasks hN) j tj hget dep hdep hres
  rw [List.nil_append] at h
  obtain ⟨u, hu, hut⟩ := List.mem_map.1 h
  obtain ⟨i, hi, hij, hieq⟩ := mem_take_get _ j u hu
  have humem : u ∈ sort_tasks_by_dependencies tasks := hieq ▸ List.get_mem _ _ _
  obtain ⟨x, hx⟩ := topo_loop_mem humem
  have hxd : x = dep := by rw [← task_map_title hx, hut]
  rw [hxd] at hx
  have hut' : t' = u := task_map_unique hN hx ht' htt
  refine ⟨i, hij, ?_⟩
  rw [List.get?_eq_get hi, hieq, hut']

/-- Witness for C2 at the repo's own scheduler test: `task_c` depends on
`task_a` and `task_b`, `task_b` depends on `task_a`; in the output,
`task_b` sits strictly before `task_c` (position 2). -/
theorem sort_topological_order_witness :
    ∃ i, i < 2 ∧
      (sort_tasks_by_dependencies
        [⟨"task_1", "task_c", "d", "developer", 1, ["task_a", "task_b"], "not_started", none, none⟩,
         ⟨"task_2", "task_a", "d", "developer", 2, [], "not_started", none, none⟩,
         ⟨"task_3", "task_b", "d", "developer", 1, ["task_a"], "not_started", none, none⟩]).get? i =
      some ⟨"task_3", "task_b", "d", "developer", 1, ["task_a"], "not_started", none, none⟩ :=
  sort_topological_order
    [⟨"task_1", "task_c", "d", "developer", 1, ["task_a", "task_b"], "not_started", none, none⟩,
     ⟨"task_2", "task_a", "d", "developer", 2, [], "not_started", none, none⟩,
     ⟨"task_3", "task_b", "d", "developer", 1, ["task_a"], "not_started", none, none⟩]
    (by decide) 2
    ⟨"task_1", "task_c", "d", "developer", 1, ["task_a", "task_b"], "not_started", none, none⟩
    (by decide) "task_b" (by decide)
    ⟨"task_3", "task_b", "d", "developer", 1, ["task_a"], "not_started", none, none⟩
    (by decide) (by decide)

/-! ## Markdown task parser (`TaskManager.parse_tasks_markdown`, lines 37-84)

The three `re` patterns of the source are embedded as explicit scanners.
Each regex is backtracking-free on its inputs except `Dependencies:\s*([^,)]+)`,
where a greedy-`\s*` give-back of one character occurs when the character
after the whitespace run is `,` or `)`; the scanners reproduce exactly that
behaviour. -/

def isPySpace (c : Char) : Bool :=
  c == ' ' || c == '\t' || c == '\n' || c == '\r' || c == '\x0b' || c == '\x0c'

def isWordChar (c : Char) : Bool :=
  c.isAlphanum || c == '_'

/-- `str.strip()`. -/
def pyStrip (s : String) : String :=
  String.mk ((((s.data.dropWhile isPySpace).reverse.dropWhile isPySpace).reverse))

/-- `str.split(',')`. -/
def splitComma : List Char → List (List Char)
  | [] => [[]]
  | c :: cs =>
    if c == ',' then [] :: splitComma cs
    else
      match splitComma cs with
      | [] => [[c]]
      | g :: gs => (c :: g) :: gs

def natOfDigits (ds : List Char) : Nat :=
  ds.foldl (fun n c => 10 * n + (c.toNat - 48)) 0

/-- Consume a literal prefix. -/
def expectLit : List Char → List Char → Option (List Char)
  | [], s => some s
  | _ :: _, [] => none
  | l :: ls, c :: cs => if c == l then expectLit ls cs else none

/-- Maximal run of characters satisfying `p` (greedy character class). -/
def takeRun (p : Char → Bool) : List Char → (List Char × List Char)
  | [] => ([], [])
  | c :: cs =>
    if p c then
      match takeRun p cs with
      | (r, rest) => (c :: r, rest)
    else ([], c :: cs)

/-- One anchored attempt of
`- \[ \] \*\*([^*]+)\*\* - ([^(]+)\(([^)]+)\)`; on success the three
groups and the remainder after the match. -/
def matchTaskLine (s : List Char) : Option (String × String × String × List Char) :=
  match expectLit ("- [ ] **".data) s with
  | none => none
  | some s1 =>
    match takeRun (fun c => !(c == '*')) s1 with
    | (g1, s2) =>
      if g1.isEmpty then none
      else
        match expectLit ("** - ".data) s2 with
        | none => none
        | some s3 =>
          match takeRun (fun c => !(c == '(')) s3 with
          | (g2, s4) =>
            if g2.isEmpty then none
            else
              match expectLit ("(".data) s4 with
              | none => none
              | some s5 =>
                match takeRun (fun c => !(c == ')')) s5 with
                | (g3, s6) =>
                  if g3.isEmpty then none
                  else
                    match expectLit (")".data) s6 with
                    | none => none
                    | some s7 => some (String.mk g1, String.mk g2, String.mk g3, s7)

/-- `re.finditer(task_pattern, content)`: left-to-right non-overlapping
scan; fuel bounds the scan positions. -/
def finditerTasks : Nat → List Char → List (String × String × String)
  | 0, _ => []
  | fuel + 1, s =>
    match s with
    | [] => []
    | _ :: cs =>
      match matchTaskLine s with
      | some (g1, g2, g3, rest) => (g1, g2, g3) :: finditerTasks fuel rest
      | none => finditerTasks fuel cs

/-- `re.search(r'Priority:\s*(\d+)', m)` followed by `int(...)`. -/
def searchPriority : Nat → List Char → Option Nat
  | 0, _ => none
  | fuel + 1, s =>
    match expectLit ("Priority:".data) s with
    | some s1 =>
      match takeRun isPySpace s1 with
      | (_, s2) =>
        match takeRun Char.isDigit s2 with
        | (ds, _) =>
          if ds.isEmpty then
            match s with
            | [] => none
            | _ :: cs => searchPriority fuel cs
          else some (natOfDigits ds)
    | none =>
      match s with
      | [] => none
      | _ :: cs => searchPriority fuel cs

/-- `re.search(r'Agent:\s*(\w+)', m)`. -/
def searchAgent : Nat → List Char → Option String
  | 0, _ => none
  | fuel + 1, s =>
    match expectLit ("Agent:".data) s with
    | some s1 =>
      match takeRun isPySpace s1 with
      | (_, s2) =>
        match takeRun isWordChar s2 with
        | (ws, _) =>
          if ws.isEmpty then
            match s with
            | [] => none
            | _ :: cs => searchAgent fuel cs
          else some (String.mk ws)
    | none =>
      match s with
      | [] => none
      | _ :: cs => searchAgent fuel cs

/-- `re.search(r'Dependencies:\s*([^,)]+)', m)`.  When the character class
run after the greedy whitespace is empty but the whitespace run is not,
the regex backtracks one character and the group is that single
whitespace character. -/
def searchDeps : Nat → List Char → Option String
  | 0, _ => none
  | fuel + 1, s =>
    match expectLit ("Dependencies:".data) s with
    | some s1 =>
      match takeRun isPySpace s1 with
      | (ws, s2) =>
        match takeRun (fun c => !(c == ',') && !(c == ')')) s2 with
        | (run, _) =>
          if !run.isEmpty then some (String.mk run)
          else if !ws.isEmpty then some (String.mk [ws.getLastD ' '])
          else
            match s with
            | [] => none
            | _ :: cs => searchDeps fuel cs
    | none =>
      match s with
      | [] => none
      | _ :: cs => searchDeps fuel cs

/-- The metadata handling of lines 49-69: defaults `priority = 5`,
`agent = "developer"`, `dependencies = []`, each overridden by a search
hit; the dependency string is split on commas and stripped unless empty
or the literal `none`. -/
def buildParsedTask (n : Nat) (g1 g2 g3 : String) : Task :=
  let title := pyStrip g1
  let descr := pyStrip g2
  let m := (pyStrip g3).data
  let priority : Int :=
    match searchPriority m.length m with
    | some p => (p : Int)
    | none => 5
  let agent :=
    match searchAgent m.length m with
    | some a => a
    | none => "developer"
  let dependencies :=
    match searchDeps m.length m with
    | none => []
    | some g =>
      let ds := pyStrip g
      if ds != "" && ds != "none" then
        (splitComma ds.data).map (fun l => pyStrip (String.mk l))
      else []
  ⟨"task_" ++ Nat.repr n, title, descr, agent, priority, dependencies,
    "not_started", none, none⟩

def buildParsedTasks : Nat → List (String × String × String) → List Task
  | _, [] => []
  | n, (g1, g2, g3) :: rest => buildParsedTask n g1 g2 g3 :: buildParsedTasks (n + 1) rest

/-- `TaskManager.parse_tasks_markdown` (lines 37-84). -/
def parse_tasks_markdown (content : String) : List Task :=
  buildParsedTasks 1 (finditerTasks content.data.length content.data)

/-- C7: on the grammar-conforming line
`- [ ] **C** - desc (Priority: 1, Agent: developer, Dependencies: A, B)`
the parser produces dependencies `["A"]`, not the full comma-separated
list `["A", "B"]`: the pattern `Dependencies:\s*([^,)]+)` stops its
capture at the first comma, so the subsequent `split(',')` can never see
a second title.  Priority, agent and title are parsed as claimed. -/
theorem parse_dependencies_truncated :
    ((parse_tasks_markdown
        "- [ ] **C** - desc (Priority: 1, Agent: developer, Dependencies: A, B)").map
      Task.dependencies = [["A"]]) ∧
    (["A"] : List String) ≠ ["A", "B"] ∧
    ((parse_tasks_markdown
        "- [ ] **C** - desc (Priority: 1, Agent: developer, Dependencies: A, B)").map
      (fun t => (t.title, t.agent, t.priority)) = [("C", "developer", 1)]) ∧
    ((parse_tasks_markdown "- [ ] **T** - d (x)").map
      (fun t => (t.agent, t.priority, t.dependencies)) = [("developer", 5, [])]) := by
  decide

/-! ## Completion poller (`TaskManager.update_task_status`, lines 282-315) -/

/-- One entry of the worker's `/results` list: `result.get("task", {}).get("id")`
and `result.get("result", "")`. -/
structure ResultEntryW where
  taskId : Option String
  resultText : Option String
  deriving DecidableEq, Repr

/-- Response to the `/results` request. -/
inductive ResultsResp where
  | non200 (code : Nat)
  | ok (entries : List ResultEntryW)
  deriving DecidableEq, Repr

/-- Response to the `/status` request for one polled task; `exn` stands
for any exception inside the `try` (all raise points precede the writes).
`currentTaskFalsy` is the truthiness of `status_data.get("current_task")`,
`statusField` is `status_data.get("status")`. -/
inductive PollResp where
  | exn (msg : String)
  | non200 (code : Nat)
  | ok (currentTaskFalsy : Bool) (statusField : Option String) (results : ResultsResp)
  deriving DecidableEq, Repr

/-- The loop body of `update_task_status` for the task at position `i`.
Only tasks whose tracked status is `"in_progress"` reach the network; the
first `/results` entry whose task id matches sets the tracked status to
`"completed"` and copies the result text (default `""`) into the task. -/
def poll_one (agents : String → Option AgentInfo) (oracle : Nat → PollResp)
    (i : Nat) (s : TaskManagerState) : TaskManagerState :=
  match s.tasks.get? i with
  | none => s
  | some task =>
    match s.taskStatus task.id with
    | none => s
    | some r =>
      if r.status == "in_progress" then
        match agents task.agent with
        | none => s
        | some _ =>
          match oracle i with
          | .exn _ => s
          | .non200 _ => s
          | .ok curFalsy statusField results =>
            if curFalsy || (statusField == some "idle") then
              match results with
              | .non200 _ => s
              | .ok entries =>
                match entries.find? (fun e => e.taskId == some task.id) with
                | none => s
                | some e =>
                  let s1 := writeStatus s task.id "completed"
                  { s1 with tasks :=
                      set_result_by_id task.id (e.resultText.getD "") s1.tasks }
            else s
      else s

/-- One `update_task_status` pass: the `for task in self.tasks` loop, the
`i`-th iteration answered by `oracle i`. -/
def update_task_status (agents : String → Option AgentInfo)
    (oracle : Nat → PollResp) (st : TaskManagerState) : TaskManagerState :=
  (List.range st.tasks.length).foldl (fun s i => poll_one agents oracle i s) st

/-- `res` is the result text the oracle offers for task id `tid` in some
poll: the first matching `/results` entry of a 200/200 exchange. -/
def ResFromOracle (oracle : Nat → PollResp) (tid : String) (res : String) : Prop :=
  ∃ i curFalsy statusField entries e,
    oracle i = PollResp.ok curFalsy statusField (ResultsResp.ok entries) ∧
    entries.find? (fun x => x.taskId == some tid) = some e ∧
    res = e.resultText.getD ""

/-- Frame relation between the pass's start state `st` and the running
state `s`: submissions identical; statuses changed only from
`"in_progress"` to `"completed"`; tasks changed only in the `result`
field, only at positions whose task was tracked `"in_progress"`, with a
result text offered by the oracle for that id. -/
def PollFrame (oracle : Nat → PollResp) (st s : TaskManagerState) : Prop :=
  s.submitted = st.submitted ∧
  s.tasks.length = st.tasks.length ∧
  (∀ tid, s.taskStatus tid = st.taskStatus tid ∨
    ∃ r, st.taskStatus tid = some r ∧ r.status = "in_progress" ∧
      s.taskStatus tid = some { r with status := "completed" }) ∧
  (∀ i, s.tasks.get? i = st.tasks.get? i ∨
    ∃ t res, st.tasks.get? i = some t ∧
      (∃ r, st.taskStatus t.id = some r ∧ r.status = "in_progress") ∧
      s.tasks.get? i = some { t with result := some res } ∧
      ResFromOracle oracle t.id res)

theorem set_result_by_id_length (tid : String) (r : String) :
    ∀ l : List Task, (set_result_by_id tid r l).length = l.length := by
  intro l
  induction l with
  | nil => rfl
  | cons t ts ih =>
    by_cases h : (t.id == tid) = true
    · simp [set_result_by_id, h]
    · simp only [set_result_by_id, h]
      simp [ih]

/-- `set_result_by_id` rewrites at most the first index holding the id,
and there only the `result` field. -/
theorem set_result_by_id_get? (tid : String) (r : String) :
    ∀ (l : List Task) (i : Nat),
      (set_result_by_id tid r l).get? i = l.get? i ∨
      ∃ t, l.get? i = some t ∧ t.id = tid ∧
        (set_result_by_id tid r l).get? i = some { t with result := some r } := by
  intro l
  induction l with
  | nil => intro i; left; rfl
  | cons t ts ih =>
    intro i
    by_cases h : (t.id == tid) = true
    · cases i with
      | zero =>
        right
        exact ⟨t, rfl, by simpa using h, by simp [set_result_by_id, h]⟩
      | succ i =>
        left
        simp [set_result_by_id, h]
    · cases i with
      | zero =>
        left
        simp [set_result_by_id, h]
      | succ i =>
        have := ih i
        simp only [set_result_by_id, h, if_neg]
        simpa using this

theorem result_update_collapse (t : Task) (a b : Option String) :
    ({ ({ t with result := a } : Task) with result := b } : Task) = { t with result := b } := by
  cases t
  rfl

theorem result_update_id (t : Task) (a : Option String) :
    ({ t with result := a } : Task).id = t.id := rfl

/-- One loop iteration preserves the frame relation to the start state. -/
theorem pollFrame_step (agents : String → Option AgentInfo)
    (oracle : Nat → PollResp) (st : TaskManagerState) (i : Nat)
    (s : TaskManagerState) (h : PollFrame oracle st s) :
    PollFrame oracle st (poll_one agents oracle i s) := by
  obtain ⟨hSub, hLen, hSt, hTk⟩ := h
  cases hT : s.tasks.get? i with
  | none =>
    simp only [poll_one, hT]
    exact ⟨hSub, hLen, hSt, hTk⟩
  | some task =>
  cases hR : s.taskStatus task.id with
  | none =>
    simp only [poll_one, hT, hR]
    exact ⟨hSub, hLen, hSt, hTk⟩
  | some r =>
  cases hrp : r.status == "in_progress" with
  | false =>
    simp only [poll_one, hT, hR, hrp, Bool.false_eq_true, if_false]
    exact ⟨hSub, hLen, hSt, hTk⟩
  | true =>
  cases hA : agents task.agent with
  | none =>
    simp only [poll_one, hT, hR, hrp, if_true, hA]
    exact ⟨hSub, hLen, hSt, hTk⟩
  | some info =>
  cases hO : oracle i with
  | exn m =>
    simp only [poll_one, hT, hR, hrp, if_true, hA, hO]
    exact ⟨hSub, hLen, hSt, hTk⟩
  | non200 c =>
    simp only [poll_one, hT, hR, hrp, if_true, hA, hO]
    exact ⟨hSub, hLen, hSt, hTk⟩
  | ok curFalsy statusField results =>
  cases hcf : curFalsy || (statusField == some "idle") with
  | false =>
    simp only [poll_one, hT, hR, hrp, if_true, hA, hO, hcf, Bool.false_eq_true, if_false]
    exact ⟨hSub, hLen, hSt, hTk⟩
  | true =>
  cases results with
  | non200 c =>
    simp only [poll_one, hT, hR, hrp, if_true, hA, hO, hcf]
    exact ⟨hSub, hLen, hSt, hTk⟩
  | ok entries =>
  cases hF : entries.find? (fun e => e.taskId == some task.id) with
  | none =>
    simp only [poll_one, hT, hR, hrp, if_true, hA, hO, hcf, hF]
    exact ⟨hSub, hLen, hSt, hTk⟩
  | some e =>
  have hgoal : poll_one agents oracle i s =
      { writeStatus s task.id "completed" with tasks := (set_result_by_id task.id (e.resultText.getD "") (writeStatus s task.id "completed").tasks) } := by
    simp only [poll_one, hT, hR, hrp, if_true, hA, hO, hcf, hF]
  rw [hgoal]
  have hrps : r.status = "in_progress" := by simpa using hrp
  have hstA : st.taskStatus task.id = some r := by
    rcases hSt task.id with hc | ⟨r0, hr1, hr2, hr3⟩
    · rw [← hc, hR]
    · rw [hR] at hr3
      injection hr3 with hr3
      rw [hr3] at hrps
      simp at hrps
  have hs1tasks : (writeStatus s task.id "completed").tasks = s.tasks :=
    writeStatus_tasks s task.id "completed"
  refine ⟨?_, ?_, ?_, ?_⟩
  · show (writeStatus s task.id "completed").submitted = st.submitted
    rw [writeStatus_submitted]
    exact hSub
  · show (set_result_by_id task.id (e.resultText.getD "")
        (writeStatus s task.id "completed").tasks).length = st.tasks.length
    rw [set_result_by_id_length, hs1tasks]
    exact hLen
  · intro tid
    show (writeStatus s task.id "completed").taskStatus tid = st.taskStatus tid ∨ _
    by_cases htid : tid = task.id
    · subst htid
      right
      exact ⟨r, hstA, hrps, writeStatus_taskStatus_self s task.id "completed" r hR⟩
    · rw [writeStatus_taskStatus_ne s _ _ _ htid]
      exact hSt tid
  · intro j
    show (set_result_by_id task.id (e.resultText.getD "")
        (writeStatus s task.id "completed").tasks).get? j = st.tasks.get? j ∨ _
    rw [hs1tasks]
    rcases set_result_by_id_get? task.id (e.resultText.getD "") s.tasks j with hc | ⟨t, hgt, htid, hset⟩
    · rw [hc]
      exact hTk j
    · rcases hTk j with hc2 | ⟨t0, res1, hst0, cond0, hs0, horo0⟩
      · right
        refine ⟨t, e.resultText.getD "", by rw [← hc2, hgt], ?_, hset, ?_⟩
        · rw [htid]
          exact ⟨r, hstA, hrps⟩
        · rw [htid]
          exact ⟨i, curFalsy, statusField, entries, e, hO, hF, rfl⟩
      · right
        rw [hgt] at hs0
        injection hs0 with hs0
        have htid0 : t0.id = task.id := by
          rw [← htid, hs0, result_update_id]
        refine ⟨t0, e.resultText.getD "", hst0, cond0, ?_, ?_⟩
        · rw [hset, hs0, result_update_collapse]
        · rw [htid0]
          exact ⟨i, curFalsy, statusField, entries, e, hO, hF, rfl⟩

/-- The whole loop preserves the frame relation. -/
theorem pollFrame_foldl (agents : String → Option AgentInfo)
    (oracle : Nat → PollResp) (st : TaskManagerState) :
    ∀ (idxs : List Nat) (s : TaskManagerState), PollFrame oracle st s →
      PollFrame oracle st (idxs.foldl (fun s i => poll_one agents oracle i s) s) := by
  intro idxs
  induction idxs with
  | nil => intro s h; exact h
  | cons i idxs ih =>
    intro s h
    exact ih (poll_one agents oracle i s) (pollFrame_step agents oracle st i s h)

/-- C10: frame property of one `update_task_status` pass — the submission
log is untouched, a tracked status changes only from `"in_progress"` to
`"completed"`, the task list keeps its length, and a task record changes
only in its `result` field, only when its tracked status at the start of
the pass was `"in_progress"`, receiving a result text the oracle offered
for its id; in particular tasks tracked `"not_started"`, `"assigned"` or
`"completed"` are never advanced by polling. -/
theorem update_task_status_frame (agents : String → Option AgentInfo)
    (oracle : Nat → PollResp) (st : TaskManagerState) :
    (update_task_status agents oracle st).submitted = st.submitted ∧
    (update_task_status agents oracle st).tasks.length = st.tasks.length ∧
    (∀ tid, (update_task_status agents oracle st).taskStatus tid = st.taskStatus tid ∨
      ∃ r, st.taskStatus tid = some r ∧ r.status = "in_progress" ∧
        (update_task_status agents oracle st).taskStatus tid =
          some { r with status := "completed" }) ∧
    (∀ i, (update_task_status agents oracle st).tasks.get? i = st.tasks.get? i ∨
      ∃ t res, st.tasks.get? i = some t ∧
        (∃ r, st.taskStatus t.id = some r ∧ r.status = "in_progress") ∧
        (update_task_status agents oracle st).tasks.get? i =
          some { t with result := some res } ∧
        ResFromOracle oracle t.id res) :=
  pollFrame_foldl agents oracle st (List.range st.tasks.length) st
    ⟨rfl, rfl, fun _ => Or.inl rfl, fun _ => Or.inl rfl⟩

/-! ## Worker task executor (`sub_agent.py`, class `SubAgent`) -/


/-- The task payload posted to `/task` (task_manager.py lines 181-187);
the worker reads its fields with `.get`, so every field is optional. -/
structure TaskData where
  id : Option String
  title : Option String
  description : Option String
  taskType : Option String
  priority : Option Int
  deriving DecidableEq, Repr

/-- A worker-side result log entry (sub_agent.py lines 98-102). -/
structure ResultLogEntry where
  task : TaskData
  result : String
  status : String
  deriving DecidableEq, Repr

/-- The mutable state of a `SubAgent` that `execute_task` touches:
`self.current_task`, `self.status`, `self.task_results`. -/
structure WorkerState where
  currentTask : Option TaskData
  status : String
  taskResults : List ResultLogEntry
  deriving DecidableEq, Repr

/-- An HTTP response as produced by `web.json_response` in `execute_task`:
the status code, the `"status"` body field, and the `"result"` (on 200) or
`"error"` (on 500) body field. -/
structure WorkerHttpResp where
  code : Nat
  bodyStatus : String
  bodyText : String
  deriving DecidableEq, Repr

/-- `SubAgent.execute_task` (sub_agent.py lines 85-118).  `body` is the
outcome of `await request.json()` (an exception while parsing the request
body is an `.error`); `proc` is the outcome of `await
self.process_task(task_data)` (free-text result on success, exception text
on failure).  Any exception lands in the `except` block: `self.status`
becomes `"error"` and a 500 `{"status": "failed", "error": ...}` response
is returned; nothing is appended to `self.task_results`.  On success the
`ResultLogEntry` is appended with status `"completed"`, the agent returns
to idle and answers 200 `{"status": "completed", "result": ...}`. -/
def execute_task (st : WorkerState) (body : Except String TaskData)
    (proc : TaskData → Except String String) : WorkerState × WorkerHttpResp :=
  match body with
  | .error e => ({ st with status := "error" }, ⟨500, "failed", e⟩)
  | .ok task_data =>
    let st1 : WorkerState := { st with currentTask := some task_data, status := "working" }
    match proc task_data with
    | .error e => ({ st1 with status := "error" }, ⟨500, "failed", e⟩)
    | .ok result =>
      let st2 : WorkerState :=
        { currentTask := none
          status := "idle"
          taskResults := st1.taskResults ++ [⟨task_data, result, "completed"⟩] }
      (st2, ⟨200, "completed", result⟩)

/-- C9: if execution raises an internal exception, the worker answers
HTTP 500 with body status `"failed"` and appends nothing to its result
log; in every case the result log grows only by entries with status
`"completed"`, and only when the task completed successfully (HTTP 200).  -/
theorem execute_task_error_handling (st : WorkerState) (body : Except String TaskData)
    (proc : TaskData → Except String String) :
    ((execute_task st body proc).2.code ≠ 200 →
      (execute_task st body proc).2.code = 500 ∧
      (execute_task st body proc).2.bodyStatus = "failed" ∧
      (execute_task st body proc).1.taskResults = st.taskResults) ∧
    (∃ added, (execute_task st body proc).1.taskResults = st.taskResults ++ added ∧
      (∀ e ∈ added, e.status = "completed") ∧
      (added ≠ [] → (execute_task st body proc).2.code = 200 ∧
        (execute_task st body proc).2.bodyStatus = "completed")) := by
  rcases body with e | task_data
  · exact ⟨fun _ => ⟨rfl, rfl, rfl⟩, [], by simp [execute_task], by simp, by simp [execute_task]⟩
  · cases hp : proc task_data with
    | error e =>
      refine ⟨fun _ => ⟨?_, ?_, ?_⟩, [], ?_, by simp, by simp [execute_task, hp]⟩ <;>
        simp [execute_task, hp]
    | ok result =>
      refine ⟨fun h => absurd ?_ h, [⟨task_data, result, "completed"⟩], ?_, ?_, ?_⟩ <;>
        simp [execute_task, hp]

/-- Witness for C9: a concrete failing execution (the processing oracle
raises `"boom"`) yields a 500 `"failed"` response and an unchanged result
log. -/
theorem execute_task_error_handling_witness :
    (execute_task ⟨none, "idle", []⟩ (.ok ⟨some "task_1", none, none, none, none⟩)
        (fun _ => .error "boom")).2.code = 500 ∧
    (execute_task ⟨none, "idle", []⟩ (.ok ⟨some "task_1", none, none, none, none⟩)
        (fun _ => .error "boom")).2.bodyStatus = "failed" ∧
    (execute_task ⟨none, "idle", []⟩ (.ok ⟨some "task_1", none, none, none, none⟩)
        (fun _ => .error "boom")).1.taskResults = [] :=
  (execute_task_error_handling ⟨none, "idle", []⟩
    (.ok ⟨some "task_1", none, none, none, none⟩) (fun _ => .error "boom")).1 (by decide)

end AgentCollab
